import Mathlib

/-!
# eazy compression codec: formal model and verification

A shallow embedding, in Lean 4, of the `eazy` streaming compression codec
(package `eazy`, files `reader.go` and `writer.go`).  Byte buffers are
modelled as `List Nat` (each entry a byte value), Go `int`/`int64`
arithmetic as `Int` where values can be negative and `Nat` otherwise, and
`uint32` truncation as `% 2^32`.  Go's `x & mask` with `mask = size-1` for
a power-of-two `size` is modelled as `x % size` (for `Int` this matches
two's-complement masking since `Int.emod` is nonnegative for a positive
modulus).  Fallible operations return `Except`; Go panics are modelled as
dedicated error values.  Loops whose termination is not structural take an
explicit fuel argument; results are stated for any sufficient fuel.
-/

namespace Eazy

set_option autoImplicit false

/-! ## Wire-format constants (writer.go) -/

/-- Tag bit for a literal element (`Literal = 0 << 7`). -/
def LiteralTag : Nat := 0x00

/-- Tag bit for a copy element (`Copy = 1 << 7`). -/
def CopyTag : Nat := 0x80

/-- `TagMask = 0b1000_0000`. -/
def TagMask : Nat := 0x80

/-- `TagLenMask = 0b0111_1111`. -/
def TagLenMask : Nat := 0x7f

/-- `Meta` is the Copy tag with zero length. -/
def MetaTagByte : Nat := 0x80

/-- `Len1 = 1<<7 - 4`. -/
def Len1 : Nat := 124

/-- `Len2 = 1<<7 - 3`. -/
def Len2 : Nat := 125

/-- `Len4 = 1<<7 - 2`. -/
def Len4 : Nat := 126

/-- `LenAlt = 1<<7 - 1` (reserved). -/
def LenAlt : Nat := 127

/-- `Off1 = 1<<8 - 4`. -/
def Off1 : Nat := 252

/-- `Off2 = 1<<8 - 3`. -/
def Off2 : Nat := 253

/-- `Off4 = 1<<8 - 2`. -/
def Off4 : Nat := 254

/-- `OffAlt = 1<<8 - 1` (reserved). -/
def OffAlt : Nat := 255

/-- `OffLong = OffAlt`: long-offset flag byte. -/
def OffLong : Nat := 255

/-- `MetaMagic = 0 << 3`. -/
def MetaMagic : Nat := 0

/-- `MetaVer = 1 << 3`. -/
def MetaVer : Nat := 8

/-- `MetaReset = 2 << 3`. -/
def MetaReset : Nat := 16

/-- `MetaBreak = 3 << 3`. -/
def MetaBreak : Nat := 24

/-- `MetaTagMask = 0b1111_1000`. -/
def MetaTagMask : Nat := 0xf8

/-- `MetaLenMask = 0b0000_0111`. -/
def MetaLenMask : Nat := 7

/-- `MetaLenWide = MetaLenMask - 1`. -/
def MetaLenWide : Nat := 6

/-- `MetaLen0 = MetaLenMask - 0`. -/
def MetaLen0 : Nat := 7

/-- `Magic = "\x80\x02eazy"`: the stream file magic, as bytes. -/
def Magic : List Nat := [0x80, 0x02, 0x65, 0x61, 0x7a, 0x79]

/-- `Version = 0`: the latest supported format version in this source tree
(writer.go, `const Version = 0`). -/
def Version : Nat := 0

/-- `minCopyChunk = 6`: minimum length the encoder emits as a Copy. -/
def minCopyChunk : Nat := 6

/-! ## Byte-buffer helpers -/

/-- Go `b[i]` on a byte slice, defaulting out-of-range reads to `0`
(every model access is guarded just as the source is). -/
def byteAt (b : List Nat) (i : Nat) : Nat := b.getD i 0

/-- Go `x & mask` for a nonnegative value, where `mask = size - 1` and
`size` is a power of two: `x % (mask + 1)`. -/
def amask (x mask : Nat) : Nat := x % (mask + 1)

/-- Go `x & mask` for a (possibly negative) `int` value `x`, with
`mask = size - 1`, `size` a power of two: two's-complement masking, which
equals the nonnegative remainder `x % (mask + 1)` (`Int.emod` is
nonnegative for a positive modulus). -/
def iamask (x : Int) (mask : Nat) : Nat := (x % ((mask : Int) + 1)).toNat

/-- Little-endian 32-bit load `*(*uint32)(unsafe.Pointer(&p[i]))`. -/
def read4LE (p : List Nat) (i : Nat) : Nat :=
  byteAt p i + 0x100 * byteAt p (i+1) + 0x10000 * byteAt p (i+2) +
    0x1000000 * byteAt p (i+3)

/-- Little-endian 64-bit load, used by `equal8`. -/
def read8LE (p : List Nat) (i : Nat) : Nat :=
  read4LE p i + 0x100000000 * read4LE p (i+4)

/-! ## Decoder errors (reader.go `var (...)` error values)

`fuel` is a model artifact marking exhaustion of loop fuel; it is
unreachable for the fuel bounds used below.  `boundsPanic` marks the Go
slice-bounds panic that `Reader.read` can raise in the forward-overlap
branch when `run` exceeds the destination length. -/

inductive RErr where
  | shortBuffer
  | overflow
  | badMagic
  | noMagic
  | unsupportedVersion
  | unsupportedMeta
  | blockSizeOverLimit
  | brk
  | missedMeta
  | eof
  | unexpectedEOF
  | fuel
  | boundsPanic
deriving DecidableEq, Repr

deriving instance DecidableEq for Except

/-! ## Decoder (reader.go, `Decoder` methods) -/

/-- `Decoder.Tag`: parse a tag byte and its (possibly multi-byte) length
starting at `st`.  Returns `(tag, l, i)`.  The final `l < 0` overflow check
of the source is dead for 64-bit `int` and is omitted. -/
def dTag (b : List Nat) (st : Nat) : Except RErr (Nat × Nat × Nat) :=
  if st ≥ b.length then .error .shortBuffer
  else
    let tag := byteAt b st &&& TagMask
    let l := byteAt b st &&& TagLenMask
    let i := st + 1
    if l = Len1 then
      if i + 1 > b.length then .error .shortBuffer
      else .ok (tag, Len1 + byteAt b i, i + 1)
    else if l = Len2 then
      if i + 2 > b.length then .error .shortBuffer
      else .ok (tag, Len1 + 0x100 + (byteAt b i ||| byteAt b (i+1) <<< 8), i + 2)
    else if l = Len4 then
      if i + 4 > b.length then .error .shortBuffer
      else .ok (tag, Len1 + 0x100 + 0x10000 +
        (byteAt b i ||| byteAt b (i+1) <<< 8 ||| byteAt b (i+2) <<< 16 |||
          byteAt b (i+3) <<< 24), i + 4)
    else if l = LenAlt then .error .overflow
    else .ok (tag, l, i)

/-- `Decoder.basicOffset`: parse a (possibly multi-byte) offset starting at
`st`.  Returns `(off, i)`.  The `off < 0` check is dead for 64-bit `int`. -/
def dBasicOffset (b : List Nat) (st : Nat) : Except RErr (Nat × Nat) :=
  if st = b.length then .error .shortBuffer
  else
    let off := byteAt b st
    let i := st + 1
    if off = Off1 then
      if i + 1 > b.length then .error .shortBuffer
      else .ok (Off1 + byteAt b i, i + 1)
    else if off = Off2 then
      if i + 2 > b.length then .error .shortBuffer
      else .ok (Off1 + 0x100 + (byteAt b i ||| byteAt b (i+1) <<< 8), i + 2)
    else if off = Off4 then
      if i + 4 > b.length then .error .shortBuffer
      else .ok (Off1 + 0x100 + 0x10000 +
        (byteAt b i ||| byteAt b (i+1) <<< 8 ||| byteAt b (i+2) <<< 16 |||
          byteAt b (i+3) <<< 24), i + 4)
    else if off = OffAlt then .error .overflow
    else .ok (off, i)

/-- `Decoder.Offset`: parse a copy offset for an element of length `l`.
An `OffLong` first byte switches to the long (non-biased) form; otherwise
the element length is added back to the stored trailing distance. -/
def dOffset (b : List Nat) (st l : Nat) : Except RErr (Nat × Nat) :=
  if st = b.length then .error .shortBuffer
  else
    let long := byteAt b st = OffLong
    let i := if long then st + 1 else st
    match dBasicOffset b i with
    | .error e => .error e
    | .ok (off, i') => .ok (if long then off else off + l, i')

/-- `Decoder.Meta`: parse a meta-tag byte at `st` into the meta kind and
payload length.  Returns `(meta, l, i)` with `i` just before the payload. -/
def dMeta (b : List Nat) (st : Nat) : Except RErr (Nat × Nat × Nat) :=
  if st = b.length then .error .shortBuffer
  else
    let m0 := byteAt b st
    let i := st + 1
    let meta := m0 &&& MetaTagMask
    let l := m0 &&& MetaLenMask
    if l = MetaLen0 then .ok (meta, 0, i)
    else if l < MetaLenWide then .ok (meta, 1 <<< l, i)
    else
      if i = b.length then .error .shortBuffer
      else
        let l1 := byteAt b i
        if l1 < Off1 then .ok (meta, l1, i + 1)
        else
          match dBasicOffset b i with
          | .error e => .error e
          | .ok (l2, i2) => .ok (meta, l2, i2)


/-! ## Reader state (reader.go, `Reader` struct)

`state` holds `0` (idle), `108` (Go `'l'`, inside a literal) or `99`
(Go `'c'`, inside a copy).  `ver` is the embedded `Decoder.Ver`.  The
model covers the `NewReaderBytes` mode: there is no underlying source, so
`more` returns `io.EOF` without touching the buffer. -/

structure RState where
  block : List Nat := []
  mask : Nat := 0
  pos : Nat := 0
  blockSizeLimit : Nat := 0
  requireMagic : Bool := false
  skipUnsupportedMeta : Bool := false
  ver : Nat := 0
  state : Nat := 0
  off : Int := 0
  len : Nat := 0
  b : List Nat := []
  i : Nat := 0
  boff : Nat := 0
deriving Repr, DecidableEq

/-- `NewReaderBytes`: fresh decompressor over the byte buffer `b`. -/
def NewReaderBytes (b : List Nat) : RState := { b := b }

/-- `Reader.reset`: (re)allocate the window to `1 << bs` zero bytes. -/
def RState.reset (r : RState) (bs : Nat) : RState :=
  let size := 1 <<< bs
  { r with block := List.replicate size 0, pos := 0, mask := size - 1,
           state := 0 }

/-- The zero-padding skip loop at the top of `Reader.readTag`
(`for i < len(r.b) && r.b[i] == 0 { i++ }`), as structural recursion on a
fuel bound.  Each iteration increments `i` below `b.length`, so the fuel
`b.length + 1 - i` used by `skipZeros` can never run out. -/
def skipZerosF (b : List Nat) : Nat → Nat → Nat
  | 0, i => i
  | fuel + 1, i => if i < b.length ∧ byteAt b i = 0 then skipZerosF b fuel (i + 1) else i

/-- The zero-padding skip loop with its sufficient fuel. -/
def skipZeros (b : List Nat) (i : Nat) : Nat := skipZerosF b (b.length + 1 - i) i

/-- `tagLen := [...]int{4, 1, 1, 0}` in `Reader.continueMetaTag`. -/
def tagLenArr : List Nat := [4, 1, 1, 0]

/-- `Reader.continueMetaTag`: handle a meta element whose lead-in tag was
just parsed; `st0` points just past the meta lead-in byte.  Returns the
updated reader, the new input position and an optional error. -/
def continueMetaTag (r : RState) (st0 : Nat) : RState × Nat × Option RErr :=
  let st := st0 - 1
  match dMeta r.b st0 with
  | .error e => (r, st0, some e)
  | .ok (meta, l, i) =>
    if r.boff = 0 ∧ st = 0 ∧ meta ≠ MetaMagic ∧ r.requireMagic then
      (r, st, some .noMagic)
    else if i + l > r.b.length then (r, st, some .shortBuffer)
    else if meta >>> 3 < tagLenArr.length ∧ l ≠ tagLenArr.getD (meta >>> 3) 0 then
      (r, st, some .unsupportedMeta)
    else if meta = MetaMagic then
      if ¬ ((r.b.drop i).take l = [101, 97, 122, 121]) then (r, st, some .badMagic)
      else (r, i + l, none)
    else if meta = MetaVer then
      let r1 := { r with ver := byteAt r.b i }
      if r1.ver > Version then (r1, st, some .unsupportedVersion)
      else (r1, i + l, none)
    else if meta = MetaReset then
      let bs := byteAt r.b i
      if bs > 32 ∨ l ≠ 1 ∨ (r.blockSizeLimit ≠ 0 ∧ 1 <<< bs > r.blockSizeLimit) then
        (r, st, some .overflow)
      else (r.reset bs, i + l, none)
    else if meta = MetaBreak then (r, i + l, some .brk)
    else if r.skipUnsupportedMeta then (r, i + l, none)
    else (r, st, some .unsupportedMeta)

/-- `Reader.readTag`: skip padding, parse one tag and enter the matching
state (or process a meta element).  The unreachable `default: panic`
branch of the source switch cannot fire: `tag = byte &&& 0x80` is always
`Literal` or `Copy`. -/
def readTag (r : RState) (st0 : Nat) : RState × Nat × Option RErr :=
  let st := skipZeros r.b st0
  match dTag r.b st with
  | .error e => (r, st, some e)
  | .ok (tag, l, i) =>
    if r.boff = 0 ∧ st = 0 ∧ byteAt r.b st ≠ MetaTagByte ∧ r.requireMagic then
      (r, st, some .noMagic)
    else if tag = MetaTagByte ∧ l = 0 then continueMetaTag r i
    else if r.blockSizeLimit ≠ 0 ∧ l > r.blockSizeLimit then
      (r, st, some .blockSizeOverLimit)
    else if tag = LiteralTag then
      ({ r with state := 108, off := 0, len := l }, i, none)
    else
      match dOffset r.b i l with
      | .error e => (r, st, some e)
      | .ok (off, i') =>
        if off > r.block.length then (r, st, some .overflow)
        else ({ r with off := (r.pos : Int) - (off : Int), state := 99, len := l }, i', none)

/-- The `for r.state == 0 { ... readTag ... }` loop of `Reader.read`, with
fuel.  Each successful iteration that stays in state `0` advances the
input position by at least two bytes, so fuel `r.b.length + 1` always
suffices; `RErr.fuel` is unreachable for that bound. -/
def readTags (r : RState) (i : Nat) : Nat → RState × Nat × Option RErr
  | 0 => (r, i, some .fuel)
  | fuel + 1 =>
    if r.state = 0 then
      let (r1, i1, e) := readTag r i
      match e with
      | some e1 => (r1, i1, some e1)
      | none => readTags r1 i1 fuel
    else (r, i, none)

/-- The window append loop shared by all branches of `Reader.read`
(`for n < end { m := copy(r.block[int(r.pos)&r.mask:], p[n:end]); ... }`),
expressed byte-wise: each produced byte lands at the masked position and
`pos` advances by one. -/
def blockWrite (block : List Nat) (mask pos : Nat) : List Nat → List Nat × Nat
  | [] => (block, pos)
  | d :: ds => blockWrite (block.set (amask pos mask) d) mask (pos + 1) ds

/-- The forward-overlap output of `Reader.read`'s default branch,
byte-wise: the first `run` bytes come from the window starting at `off`,
every later byte repeats the byte produced `run` positions earlier
(`count` bytes remain to produce, `acc` holds those already produced). -/
def overlapFill (block : List Nat) (mask : Nat) (off : Int) (run : Nat)
    (acc : List Nat) : Nat → List Nat
  | 0 => acc
  | c + 1 =>
    let j := acc.length
    let byte := if j < run then byteAt block (iamask (off + (j : Int)) mask)
                else byteAt acc (j - run)
    overlapFill block mask off run (acc ++ [byte]) c

/-- Common tail of `Reader.read`: account the produced bytes, append them
to the window and leave the element state if it is exhausted. -/
def finishRead (r : RState) (i : Nat) (out : List Nat) :
    RState × Nat × List Nat × Option RErr :=
  let len1 := r.len - out.length
  let bw := blockWrite r.block r.mask r.pos out
  ({ r with len := len1, block := bw.1, pos := bw.2,
            state := if len1 = 0 then 0 else r.state }, i, out, none)

/-- `Reader.read`: produce up to `plen` bytes starting from input position
`st`.  Returns the updated reader, the new input position, the produced
bytes and an optional error.  `boundsPanic` marks the Go slice-bounds
panic of the forward-overlap branch when `run` exceeds the destination
length (`copy(p[j:run], ...)` with `run > len(p)`). -/
def readOne (r0 : RState) (plen st : Nat) : RState × Nat × List Nat × Option RErr :=
  let t := readTags r0 st (r0.b.length + 1)
  let r := t.1
  let i := t.2.1
  match t.2.2 with
  | some e => (r, i, [], some e)
  | none =>
    if r.block.length = 0 then (r, st, [], some .missedMeta)
    else if r.state = 108 ∧ i = r.b.length then (r, i, [], some .shortBuffer)
    else
      let end0 := min r.len plen
      if r.state = 108 then
        let out := (r.b.drop i).take (min end0 (r.b.length - i))
        finishRead r (i + out.length) out
      else if r.off + (r.len : Int) ≤ (r.pos : Int) then
        let j := iamask r.off r.mask
        let out := (r.block.drop j).take (min end0 (r.block.length - j))
        finishRead { r with off := r.off + (out.length : Int) } i out
      else if r.off = (r.pos : Int) then
        finishRead r i (List.replicate end0 0)
      else
        let run := ((r.pos : Int) - r.off).toNat
        if run > plen then (r, i, [], some .boundsPanic)
        else
          let out := overlapFill r.block r.mask r.off run [] end0
          finishRead { r with off := r.off + (out.length : Int) } i out

/-- The main loop of `Reader.Read`, with fuel.  In bytes mode (`Reader ==
nil`) the refill `r.more()` returns `io.EOF`, promoted to
`io.ErrUnexpectedEOF` when the reader is mid-element or input remains.
Every iteration either delivers at least one byte or sets an error that
the next guard check turns into a return, so fuel `plen + 2` suffices. -/
def readLoop (r : RState) (plen : Nat) (acc : List Nat) (err : Option RErr) :
    Nat → RState × List Nat × Option RErr
  | 0 => (r, acc, err)
  | fuel + 1 =>
    if acc.length < plen ∧ err = none then
      let t := readOne r (plen - acc.length) r.i
      let r2 := { t.1 with i := t.2.1 }
      let out := t.2.2.1
      let e := t.2.2.2
      let acc1 := acc ++ out
      if acc1.length = plen then (r2, acc1, e)
      else if e ≠ some .shortBuffer then readLoop r2 plen acc1 e fuel
      else
        let e1 := if r2.state ≠ 0 ∨ r2.i < r2.b.length then some RErr.unexpectedEOF
                  else some RErr.eof
        readLoop r2 plen acc1 e1 fuel
    else (r, acc, err)

/-- `Reader.Read` with a destination buffer of length `plen`, in bytes
mode: returns the updated reader, the delivered bytes and the final
error. -/
def RState.Read (r : RState) (plen : Nat) : RState × List Nat × Option RErr :=
  readLoop r plen [] none (plen + 2)


/-! ## Writer errors

The writer's failure modes are Go panics (`"too big length"`,
`"too big offset"` in the encoder, `"too big offset"` in the match loop)
plus the model-artifact fuel marker for the scan loop. -/

inductive WErr where
  | tooBigLength
  | tooBigOffset
  | fuel
deriving DecidableEq, Repr

/-! ## Encoder (writer.go, `Encoder` methods) -/

/-- `Encoder.Tag`: append a tag byte with biased variable-length length
encoding (`const reserve = 8` caps the four-byte tier). -/
def eTag (b : List Nat) (tag l : Nat) : Except WErr (List Nat) :=
  if l < Len1 then .ok (b ++ [tag ||| l])
  else
    let l1 := l - Len1
    if l1 < 0x100 then .ok (b ++ [tag ||| Len1, l1 % 0x100])
    else
      let l2 := l1 - 0x100
      if l2 < 0x10000 then .ok (b ++ [tag ||| Len2, l2 % 0x100, l2 / 0x100 % 0x100])
      else
        let l4 := l2 - 0x10000
        if l4 < 0x100000000 - 8 then
          .ok (b ++ [tag ||| Len4, l4 % 0x100, l4 / 0x100 % 0x100,
            l4 / 0x10000 % 0x100, l4 / 0x1000000 % 0x100])
        else .error .tooBigLength

/-- Go `byte(x)` for an `int` value: the two's-complement low byte, which
is the nonnegative remainder modulo 256. -/
def intByte (x : Int) : Nat := (x % 256).toNat

/-- `Encoder.Offset`: append a copy offset for an element of length `l`.
Stores the trailing distance `off - l` when `off >= l`; otherwise emits
the `OffLong` flag and stores `off` itself. -/
def eOffset (b : List Nat) (off0 : Int) (l : Nat) : Except WErr (List Nat) :=
  let off := if off0 ≥ (l : Int) then off0 - l else off0
  let b := if off0 ≥ (l : Int) then b else b ++ [OffLong]
  if off < Off1 then .ok (b ++ [intByte off])
  else
    let o1 := off - Off1
    if o1 < 0x100 then .ok (b ++ [Off1, intByte o1])
    else
      let o2 := o1 - 0x100
      if o2 < 0x10000 then .ok (b ++ [Off2, intByte o2, intByte (o2 / 0x100)])
      else
        let o4 := o2 - 0x10000
        if o4 < 0x100000000 - 8 then
          .ok (b ++ [Off4, intByte o4, intByte (o4 / 0x100),
            intByte (o4 / 0x10000), intByte (o4 / 0x1000000)])
        else .error .tooBigOffset

/-! ## Writer state (writer.go, `Writer` struct) -/

structure WState where
  b : List Nat := []
  written : Nat := 0
  block : List Nat := []
  mask : Nat := 0
  pos : Nat := 0
  ht : List Nat := []
  hsh : Nat := 0
  ver : Nat := 0
  appendMagic : Bool := true
deriving Repr, DecidableEq

/-- `bits.Len`: number of bits needed to represent `n`. -/
def bitsLen (n : Nat) : Nat := if n = 0 then 0 else Nat.log2 n + 1

/-- `bits.TrailingZeros` for the power-of-two window size.  Structural
recursion on fuel; the value halves each step, so fuel `n + 1` cannot run
out. -/
def trailZerosF : Nat → Nat → Nat
  | 0, _ => 0
  | fuel + 1, n => if n ≠ 0 ∧ n % 2 = 0 then trailZerosF fuel (n / 2) + 1 else 0

/-- `bits.TrailingZeros` with its sufficient fuel. -/
def trailZeros (n : Nat) : Nat := trailZerosF (n + 1) n

/-- `NewWriter` (without the sink): checks the size constraints the Go
constructor panics on, then builds the initial state.  `Ver` is set to
`Version` (`= 0` in this tree) and `AppendMagic` defaults to true. -/
def NewWriter (bs hs : Nat) : Option WState :=
  if (bs - 1) &&& bs ≠ 0 ∨ bs < 32 ∨ bs > 2 ^ 31 then none
  else if (hs - 1) &&& hs ≠ 0 ∨ hs < 4 then none
  else some
    { b := [], written := 0
      block := List.replicate bs 0, mask := bs - 1, pos := 0
      ht := List.replicate hs 0, hsh := 32 - bitsLen (hs - 1)
      ver := Version, appendMagic := true }

/-- `Writer.reset`: zero position, written counter, window and hash
table (sizes are kept). -/
def WState.reset (w : WState) : WState :=
  { w with pos := 0, written := 0,
           block := List.replicate w.block.length 0,
           ht := List.replicate w.ht.length 0 }

/-- `Writer.hash`: multiplicative fingerprint of the four bytes at `i`,
in `uint32` arithmetic, shifted down to a table index. -/
def WState.hash (w : WState) (p : List Nat) (i : Nat) : Nat :=
  read4LE p i * 0x1e35a7bd % 0x100000000 >>> w.hsh

/-- `Writer.appendMagic`. -/
def appendMagicBytes (b : List Nat) : List Nat :=
  b ++ [MetaTagByte, MetaMagic ||| 2, 101, 97, 122, 121]

/-- `Writer.appendReset`: `Meta, MetaReset|0, log2(block size)`. -/
def appendResetBytes (b : List Nat) (block : Nat) : List Nat :=
  b ++ [MetaTagByte, MetaReset ||| 0, trailZeros block]

/-- `Writer.appendHeader`: optional magic, then a `MetaVer` element only
when `Ver != 0`, then `MetaReset`. -/
def WState.appendHeader (w : WState) (b : List Nat) : List Nat :=
  let b := if w.appendMagic then appendMagicBytes b else b
  let b := if w.ver ≠ 0 then b ++ [MetaTagByte, MetaVer ||| 0, w.ver % 256] else b
  appendResetBytes b w.block.length

/-- `Writer.copyData`: append produced bytes into the window at the
masked position, advancing `pos` (byte-wise form of the chunked
`copy(w.block[int(w.pos)&w.mask:], d[st:end])` loop). -/
def WState.copyData (w : WState) (d : List Nat) (st en : Nat) : WState :=
  let bw := blockWrite w.block w.mask w.pos ((d.drop st).take (en - st))
  { w with block := bw.1, pos := bw.2 }

/-- `Writer.appendLiteral`: literal tag plus the raw bytes. -/
def WState.appendLiteral (w : WState) (d : List Nat) (st en : Nat) :
    Except WErr WState := do
  let b ← eTag w.b LiteralTag (en - st)
  return { w with b := b ++ (d.drop st).take (en - st) }

/-- `Writer.appendCopy`: copy tag for `[st, en)` plus the trailing-offset
encoding of `w.pos - st`. -/
def WState.appendCopy (w : WState) (st en : Int) : Except WErr WState := do
  let b ← eTag w.b CopyTag (en - st).toNat
  let b ← eOffset b ((w.pos : Int) - st) (en - st).toNat
  return { w with b := b }


/-! ## Match-engine scan loops (writer.go, `Writer.Write` internals) -/

/-- Backward match extension: step `ist`/`st` down while the input byte
matches the window byte (`for ist >= done && p[ist] == w.block[st&w.mask]`).
Returns the final pair before the source's `ist++; st++`.  Structural
recursion on fuel; each iteration decrements `ist` while `ist ≥ done`, so
the fuel `(ist + 2 - done).toNat` used by `extendBack` cannot run out. -/
def extendBackF (p block : List Nat) (mask done : Nat) : Nat → Int → Int → Int × Int
  | 0, ist, st => (ist, st)
  | fuel + 1, ist, st =>
    if ist ≥ (done : Int) ∧ byteAt p ist.toNat = byteAt block (iamask st mask) then
      extendBackF p block mask done fuel (ist - 1) (st - 1)
    else (ist, st)

/-- Backward match extension with its sufficient fuel. -/
def extendBack (p block : List Nat) (mask done : Nat) (ist st : Int) : Int × Int :=
  extendBackF p block mask done (ist + 2 - done).toNat ist st

/-- Eight-at-a-time forward extension (`equal8` fast path).  Structural
recursion on fuel; each iteration advances `iend` below `p.length`, so the
fuel `p.length + 1 - iend` used by `extendFwd8` cannot run out. -/
def extendFwd8F (p block : List Nat) (mask : Nat) : Nat → Nat → Nat → Nat × Nat
  | 0, iend, endp => (iend, endp)
  | fuel + 1, iend, endp =>
    if iend + 8 < p.length ∧ amask endp mask + 8 < block.length ∧
        read8LE p iend = read8LE block (amask endp mask) then
      extendFwd8F p block mask fuel (iend + 8) (endp + 8)
    else (iend, endp)

/-- Eight-at-a-time forward extension with its sufficient fuel. -/
def extendFwd8 (p block : List Nat) (mask iend endp : Nat) : Nat × Nat :=
  extendFwd8F p block mask (p.length + 1 - iend) iend endp

/-- Byte-wise forward extension finishing the fast path.  Structural
recursion on fuel, which cannot run out for `p.length + 1 - iend`. -/
def extendFwd1F (p block : List Nat) (mask : Nat) : Nat → Nat → Nat → Nat × Nat
  | 0, iend, endp => (iend, endp)
  | fuel + 1, iend, endp =>
    if iend < p.length ∧ byteAt p iend = byteAt block (amask endp mask) then
      extendFwd1F p block mask fuel (iend + 1) (endp + 1)
    else (iend, endp)

/-- Byte-wise forward extension with its sufficient fuel. -/
def extendFwd1 (p block : List Nat) (mask iend endp : Nat) : Nat × Nat :=
  extendFwd1F p block mask (p.length + 1 - iend) iend endp

/-- `Writer.writeZeros` forward scan, eight bytes at a time
(`for iend+8 < len(p) && equal8(p[iend:], zeros)`).  Structural recursion
on fuel, which cannot run out for `p.length + 1 - iend`. -/
def zeroScan8F (p : List Nat) : Nat → Nat → Nat
  | 0, iend => iend
  | fuel + 1, iend =>
    if iend + 8 < p.length ∧ read8LE p iend = 0 then zeroScan8F p fuel (iend + 8)
    else iend

/-- The eight-byte zero scan with its sufficient fuel. -/
def zeroScan8 (p : List Nat) (iend : Nat) : Nat :=
  zeroScan8F p (p.length + 1 - iend) iend

/-- `Writer.writeZeros` byte-wise forward scan.  Structural recursion on
fuel, which cannot run out for `p.length + 1 - iend`. -/
def zeroScan1F (p : List Nat) : Nat → Nat → Nat
  | 0, iend => iend
  | fuel + 1, iend =>
    if iend < p.length ∧ byteAt p iend = 0 then zeroScan1F p fuel (iend + 1)
    else iend

/-- The byte-wise zero scan with its sufficient fuel. -/
def zeroScan1 (p : List Nat) (iend : Nat) : Nat :=
  zeroScan1F p (p.length + 1 - iend) iend

/-- `Writer.writeZeros` backward scan (`for i > done && p[i-1] == 0`).
Structural recursion on fuel, which cannot run out for `i + 1`. -/
def zeroScanBackF (p : List Nat) (done : Nat) : Nat → Nat → Nat
  | 0, i => i
  | fuel + 1, i =>
    if done < i ∧ byteAt p (i - 1) = 0 then zeroScanBackF p done fuel (i - 1)
    else i

/-- The backward zero scan with its sufficient fuel. -/
def zeroScanBack (p : List Nat) (done i : Nat) : Nat :=
  zeroScanBackF p done (i + 1) i

/-- `Writer.writeRunlen` forward scan
(`for i+jf < len(p) && p[st+jf] == p[i+jf]`).  Structural recursion on
fuel, which cannot run out for `p.length + 1 - (i + jf)`. -/
def runFwdF (p : List Nat) (st i : Nat) : Nat → Nat → Nat
  | 0, jf => jf
  | fuel + 1, jf =>
    if i + jf < p.length ∧ byteAt p (st + jf) = byteAt p (i + jf) then
      runFwdF p st i fuel (jf + 1)
    else jf

/-- The forward run scan with its sufficient fuel. -/
def runFwd (p : List Nat) (st i jf : Nat) : Nat :=
  runFwdF p st i (p.length + 1 - (i + jf)) jf

/-- `Writer.writeRunlen` backward scan
(`for st+jb >= 0 && i+jb >= done && p[st+jb] == p[i+jb]`), from `jb = -1`.
Structural recursion on fuel; each iteration decrements `jb` while
`st + jb ≥ 0`, so the fuel `(st + jb + 2).toNat` used by `runBack` cannot
run out. -/
def runBackF (p : List Nat) (done st i : Nat) : Nat → Int → Int
  | 0, jb => jb
  | fuel + 1, jb =>
    if (st : Int) + jb ≥ 0 ∧ (i : Int) + jb ≥ (done : Int) ∧
        byteAt p ((st : Int) + jb).toNat = byteAt p ((i : Int) + jb).toNat then
      runBackF p done st i fuel (jb - 1)
    else jb

/-- The backward run scan with its sufficient fuel. -/
def runBack (p : List Nat) (done st i : Nat) (jb : Int) : Int :=
  runBackF p done st i (st + jb + 2).toNat jb

/-- `Writer.writeZeros`: emit the zero run around `i0` as
`Copy(n) OffLong 0` (after any pending literal), or skip if it is shorter
than `minCopyChunk`.  Returns `(writer, nextdone, next i)`. -/
def WState.writeZeros (w : WState) (p : List Nat) (done i0 : Nat) :
    Except WErr (WState × Nat × Nat) :=
  let iend := zeroScan1 p (zeroScan8 p i0)
  let i := zeroScanBack p done i0
  if iend - i < minCopyChunk then .ok (w, done, i + 1)
  else
    (if done ≠ i then do
        let w ← w.appendLiteral p done i
        pure (w.copyData p done i)
      else pure w) >>= fun w =>
    eTag w.b CopyTag (iend - i) >>= fun b =>
    let w := { w with b := b ++ [OffLong, 0] }
    let w := w.copyData p i iend
    .ok (w, iend, iend)

/-- `Writer.writeRunlen`: run-length branch of the scan loop, with the
zero-region fast path, the too-far `cut` branch (which emits the gap as a
literal) and the overlapping-copy emission. -/
def WState.writeRunlen (w : WState) (p : List Nat) (done st i : Nat) :
    Except WErr (WState × Nat × Nat) := do
  if st + 8 < p.length ∧ read8LE p st = 0 then w.writeZeros p done st
  else
    let jf := runFwd p st i 0
    let jb := runBack p done st i (-1) + 1
    if (jf : Int) - jb < (minCopyChunk : Int) then return (w, done, i + 1)
    else if i - st ≥ w.block.length - 8 then
      let iend := done + (i - st)
      let w ← w.appendLiteral p done iend
      let w := w.copyData p done iend
      return (w, iend, iend)
    else
      let ist := ((i : Int) + jb).toNat
      let iend := i + jf
      let w ← w.appendLiteral p done ist
      let w := w.copyData p done ist
      let b ← eTag w.b CopyTag (iend - ist)
      let b ← eOffset b ((i : Int) - (st : Int)) (iend - ist)
      let w := { w with b := b }
      let w := w.copyData p ist iend
      return (w, iend, iend)

/-- The scan loop of `Writer.Write` (`for i+4 <= len(p)`), with fuel.
Mirrors, in order: fingerprint lookup and table update, the staleness
filter, the run-length branch, backward/forward extension, the two
wrap-overlap retractions, the `minCopyChunk` acceptance gate, emission
(literal prefix, the copy, the opportunistic hash seed at `i+1`) and the
cursor jump to `iend`. -/
def writeLoop (w : WState) (p : List Nat) (start done i : Nat) :
    Nat → Except WErr (WState × Nat)
  | 0 => .error .fuel
  | fuel + 1 =>
    if i + 4 ≤ p.length then
      let h := w.hash p i
      let posH := w.ht.getD h 0
      let w1 := { w with ht := w.ht.set h ((start + i) % 0x100000000) }
      let off : Int := (posH : Int) - (w1.pos : Int)
      if -off > (w1.block.length : Int) then writeLoop w1 p start done (i + 1) fuel
      else if 0 ≤ off ∧ (i : Int) > (done : Int) + off then
        match w1.writeRunlen p done (done + off.toNat) i with
        | .error e => .error e
        | .ok (w2, done2, i2) => writeLoop w2 p start done2 i2 fuel
      else
        let eb := extendBack p w1.block w1.mask done ((i : Int) - 1) ((posH : Int) - 1)
        let ist := eb.1 + 1
        let st := eb.2 + 1
        let e8 := extendFwd8 p w1.block w1.mask i posH
        let e1 := extendFwd1 p w1.block w1.mask e8.1 e8.2
        let iend0 : Int := e1.1
        let end0 : Int := e1.2
        let blit : Int := (w1.pos : Int) - (w1.block.length : Int)
        let bend : Int := blit + (iend0 - (done : Int))
        let d1 : Int := bend - st
        let iend1 := if d1 > 0 then iend0 - d1 else iend0
        let end1 := if d1 > 0 then end0 - d1 else end0
        let d2 : Int := (end1 - (w1.block.length : Int)) - blit
        let iend2 := if d2 > 0 then iend1 - d2 else iend1
        let end2 := if d2 > 0 then end1 - d2 else end1
        if end2 - st < (minCopyChunk : Int) then writeLoop w1 p start done (i + 1) fuel
        else
          match (do
            let w2 ← if (done : Int) < ist then do
                let w2 ← w1.appendLiteral p done ist.toNat
                pure (w2.copyData p done ist.toNat)
              else pure w1
            if (w2.pos : Int) - st > (w2.block.length : Int) then
              Except.error WErr.tooBigOffset
            else do
              let w3 ← w2.appendCopy st end2
              let w3 := w3.copyData p ist.toNat iend2.toNat
              let ht2 := w3.ht.set (w3.hash p (i + 1)) ((start + i + 1) % 0x100000000)
              pure (if i + 1 + 4 ≤ p.length then { w3 with ht := ht2 } else w3)) with
          | .error e => .error e
          | .ok w4 => writeLoop w4 p start iend2.toNat iend2.toNat fuel
    else .ok (w, done)

/-- `Writer.write`: hand the pending buffer to the sink in one call.
`resp` is the sink's behavior: the accepted byte count and an error flag.
On error or short write the writer resets itself to fresh.  Returns the
updated writer, the sink error flag and the payload of the single sink
call. -/
def WState.write (w : WState) (resp : List Nat → Nat × Bool) :
    WState × Bool × List Nat :=
  let payload := w.b
  let r := resp payload
  let w1 := { w with written := w.written + r.1 }
  let w2 := if r.2 ∨ r.1 ≠ payload.length then w1.reset else w1
  (w2, r.2, payload)

/-- The first two lines of `Writer.Write`: truncate the pending buffer
(`w.b = w.b[:0]`) and append the header when nothing has been written. -/
def WState.startBuf (w0 : WState) : WState :=
  let w := { w0 with b := [] }
  if w.written = 0 then { w with b := w.appendHeader w.b } else w

/-- `Writer.Write`: one producer call.  Appends the header if nothing has
been written yet, runs the scan loop, flushes the trailing literal and
hands the whole compressed buffer to the sink in exactly one call.
Returns `(writer, done, sink-error flag, sink payload)`; on a sink error
the source returns `(0, err)`, modelled by `done = 0`. -/
def WState.Write (w0 : WState) (p : List Nat) (resp : List Nat → Nat × Bool)
    (fuel : Nat) : Except WErr (WState × Nat × Bool × List Nat) := do
  let w := w0.startBuf
  let lw ← writeLoop w p w.pos 0 0 fuel
  let w1 := lw.1
  let done1 := lw.2
  let wd ← if done1 < p.length then do
      let w2 ← w1.appendLiteral p done1 p.length
      pure (w2.copyData p done1 p.length, p.length)
    else pure (w1, done1)
  let res := wd.1.write resp
  if res.2.1 then return (res.1, 0, true, res.2.2)
  else return (res.1, wd.2, false, res.2.2)


/-- The emitted data stream as a sequence of elements: empty, a
`Literal` element (tag bytes produced by `Encoder.Tag` followed by
exactly the announced number of raw bytes), or a `Copy` element (tag
bytes produced by `Encoder.Tag`, offset bytes produced by
`Encoder.Offset`) whose length is at least `minCopyChunk`, each followed
by further elements.  This is the shape of everything the scan loop and
the trailing-literal flush append to the output buffer. -/
inductive EmitOk : List Nat → Prop where
  | nil : EmitOk []
  | lit (l : Nat) (tb data rest : List Nat)
      (ht : eTag [] LiteralTag l = .ok tb) (hd : data.length = l)
      (hr : EmitOk rest) : EmitOk (tb ++ (data ++ rest))
  | copy (l : Nat) (off : Int) (tb ob rest : List Nat)
      (ht : eTag [] CopyTag l = .ok tb) (ho : eOffset [] off l = .ok ob)
      (hmin : minCopyChunk ≤ l) (hr : EmitOk rest) :
      EmitOk (tb ++ (ob ++ rest))

/-! ## Spec-modelled definitions (for refinement comparison only)

These two definitions transcribe the spec text, not the source, and are
used solely to compare the spec claims against the code-derived
definitions above. -/

/-- The header format the spec describes for C4: magic, then a `MetaVer`
element carrying the version, then `MetaReset` with the window log2. -/
def specHeaderC4 (ver log2 : Nat) : List Nat :=
  [MetaTagByte, MetaMagic ||| 2, 101, 97, 122, 121] ++
  [MetaTagByte, MetaVer ||| 0, ver] ++ [MetaTagByte, MetaReset ||| 0, log2]

/-- The version-dependent minimum copy length the spec claims for C5:
4 in format version 0, 6 in version 1. -/
def specMinCopy (ver : Nat) : Nat := if ver = 0 then 4 else 6

/-! ## Arithmetic helpers for the variable-length codes -/

/-- Disjoint `or` is addition: low part below `2^k`, high part shifted by
`k`. -/
theorem lor_two_pow_low (a c k : Nat) (h : a < 2 ^ k) :
    a ||| c <<< k = a + c * 2 ^ k := by
  have hmod : (a ||| c <<< k) % 2 ^ k = a := by
    apply Nat.eq_of_testBit_eq
    intro i
    rw [Nat.testBit_mod_two_pow, Nat.testBit_lor, Nat.testBit_shiftLeft]
    by_cases hik : i < k
    · simp [hik, Nat.not_le.mpr hik]
    · have h1 : a.testBit i = false :=
        Nat.testBit_eq_false_of_lt (lt_of_lt_of_le h (Nat.pow_le_pow_right (by omega) (by omega)))
    
      simp [hik, h1]
  have hdiv : (a ||| c <<< k) / 2 ^ k = c := by
    have : (a ||| c <<< k) >>> k = c := by
      apply Nat.eq_of_testBit_eq
      intro i
      rw [Nat.testBit_shiftRight, Nat.testBit_lor, Nat.testBit_shiftLeft]
      have h1 : a.testBit (k + i) = false :=
        Nat.testBit_eq_false_of_lt (lt_of_lt_of_le h (Nat.pow_le_pow_right (by omega) (by omega)))
      simp [h1, Nat.le_add_right]
    rwa [Nat.shiftRight_eq_div_pow] at this
  have hdm := Nat.div_add_mod (a ||| c <<< k) (2 ^ k)
  rw [hmod, hdiv] at hdm
  have hcomm : 2 ^ k * c = c * 2 ^ k := Nat.mul_comm _ _
  omega

/-- The copy-tag bit combined with a 7-bit code, exhaustively. -/
theorem copy_lor_facts : ∀ x, x < 128 →
    ((0x80 ||| x) &&& TagMask = 0x80 ∧ (0x80 ||| x) &&& TagLenMask = x ∧
      0x80 ||| x = 0x80 + x) := by decide

/-- The literal-tag bit combined with a 7-bit code, exhaustively. -/
theorem lit_lor_facts : ∀ x, x < 128 →
    ((0 ||| x) &&& TagMask = 0 ∧ (0 ||| x) &&& TagLenMask = x ∧
      0 ||| x = 0 + x) := by decide

/-- The tag byte `t ||| x` for `t ∈ {Literal, Copy}` and a 7-bit code `x`
is the sum `t + x`. -/
theorem tag_lor_eq_add (t x : Nat) (ht : t = LiteralTag ∨ t = CopyTag)
    (hx : x < 128) : t ||| x = t + x := by
  rcases ht with h | h <;> subst h
  · exact (lit_lor_facts x hx).2.2
  · exact (copy_lor_facts x hx).2.2

/-- Extracting the kind bit and the length code from a combined tag byte. -/
theorem tag_byte_split (t x : Nat) (ht : t = LiteralTag ∨ t = CopyTag)
    (hx : x < 128) :
    (t ||| x) &&& TagMask = t ∧ (t ||| x) &&& TagLenMask = x := by
  rcases ht with h | h <;> subst h
  · exact ⟨(lit_lor_facts x hx).1, (lit_lor_facts x hx).2.1⟩
  · exact ⟨(copy_lor_facts x hx).1, (copy_lor_facts x hx).2.1⟩


/-- Recomposing four little-endian bytes with `|||`/`<<<` is plain
arithmetic. -/
theorem lor4_eq (b0 b1 b2 b3 : Nat) (h0 : b0 < 256) (h1 : b1 < 256)
    (h2 : b2 < 256) :
    b0 ||| b1 <<< 8 ||| b2 <<< 16 ||| b3 <<< 24 =
      b0 + 256 * b1 + 65536 * b2 + 16777216 * b3 := by
  have e1 : b0 ||| b1 <<< 8 = b0 + b1 * 2 ^ 8 := lor_two_pow_low _ _ _ (by omega)
  have l1 : b0 + b1 * 2 ^ 8 < 2 ^ 16 := by norm_num; omega
  have e2 : b0 + b1 * 2 ^ 8 ||| b2 <<< 16 = b0 + b1 * 2 ^ 8 + b2 * 2 ^ 16 :=
    lor_two_pow_low _ _ _ l1
  have l2 : b0 + b1 * 2 ^ 8 + b2 * 2 ^ 16 < 2 ^ 24 := by norm_num; omega
  have e3 : b0 + b1 * 2 ^ 8 + b2 * 2 ^ 16 ||| b3 <<< 24 =
      b0 + b1 * 2 ^ 8 + b2 * 2 ^ 16 + b3 * 2 ^ 24 := lor_two_pow_low _ _ _ l2
  rw [e1, e2, e3]
  norm_num
  omega

/-- `Decoder.Tag` on a head byte embedding a small length directly. -/
theorem dTag_cons_small (tb0 t x : Nat) (rest : List Nat)
    (hm : tb0 &&& TagMask = t) (hc : tb0 &&& TagLenMask = x) (hx : x < Len1) :
    dTag (tb0 :: rest) 0 = .ok (t, x, 1) := by
  have hx' : x < 124 := hx
  have hb0 : byteAt (tb0 :: rest) 0 = tb0 := rfl
  have hlen : (tb0 :: rest).length = rest.length + 1 := by simp
  simp only [dTag, hb0, hlen, hm, hc]
  rw [if_neg (show ¬ (0 ≥ rest.length + 1) by omega),
    if_neg (show ¬ x = Len1 by simp only [show Len1 = 124 from rfl]; omega),
    if_neg (show ¬ x = Len2 by simp only [show Len2 = 125 from rfl]; omega),
    if_neg (show ¬ x = Len4 by simp only [show Len4 = 126 from rfl]; omega),
    if_neg (show ¬ x = LenAlt by simp only [show LenAlt = 127 from rfl]; omega)]

/-- `Decoder.Tag` on a head byte carrying the `Len1` code. -/
theorem dTag_cons_len1 (tb0 t c0 : Nat) (rest : List Nat)
    (hm : tb0 &&& TagMask = t) (hc : tb0 &&& TagLenMask = Len1) :
    dTag (tb0 :: c0 :: rest) 0 = .ok (t, Len1 + c0, 2) := by
  have hb0 : byteAt (tb0 :: c0 :: rest) 0 = tb0 := rfl
  have hb1 : byteAt (tb0 :: c0 :: rest) 1 = c0 := rfl
  have hlen : (tb0 :: c0 :: rest).length = rest.length + 2 := by simp
  simp only [dTag, hb0, hb1, hlen, hm, hc]
  rw [if_neg (show ¬ (0 ≥ rest.length + 2) by omega),
    if_pos trivial,
    if_neg (show ¬ (0 + 1 + 1 > rest.length + 2) by omega)]

/-- `Decoder.Tag` on a head byte carrying the `Len2` code. -/
theorem dTag_cons_len2 (tb0 t c0 c1 : Nat) (rest : List Nat)
    (hm : tb0 &&& TagMask = t) (hc : tb0 &&& TagLenMask = Len2) :
    dTag (tb0 :: c0 :: c1 :: rest) 0 =
      .ok (t, Len1 + 0x100 + (c0 ||| c1 <<< 8), 3) := by
  have hb0 : byteAt (tb0 :: c0 :: c1 :: rest) 0 = tb0 := rfl
  have hb1 : byteAt (tb0 :: c0 :: c1 :: rest) 1 = c0 := rfl
  have hb2 : byteAt (tb0 :: c0 :: c1 :: rest) 2 = c1 := rfl
  have hlen : (tb0 :: c0 :: c1 :: rest).length = rest.length + 3 := by simp
  simp only [dTag, hb0, hb1, hb2, hlen, hm, hc]
  rw [if_neg (show ¬ (0 ≥ rest.length + 3) by omega),
    if_neg (show ¬ Len2 = Len1 by decide),
    if_pos trivial,
    if_neg (show ¬ (0 + 1 + 2 > rest.length + 3) by omega)]

/-- `Decoder.Tag` on a head byte carrying the `Len4` code. -/
theorem dTag_cons_len4 (tb0 t c0 c1 c2 c3 : Nat) (rest : List Nat)
    (hm : tb0 &&& TagMask = t) (hc : tb0 &&& TagLenMask = Len4) :
    dTag (tb0 :: c0 :: c1 :: c2 :: c3 :: rest) 0 =
      .ok (t, Len1 + 0x100 + 0x10000 +
        (c0 ||| c1 <<< 8 ||| c2 <<< 16 ||| c3 <<< 24), 5) := by
  have hb0 : byteAt (tb0 :: c0 :: c1 :: c2 :: c3 :: rest) 0 = tb0 := rfl
  have hb1 : byteAt (tb0 :: c0 :: c1 :: c2 :: c3 :: rest) 1 = c0 := rfl
  have hb2 : byteAt (tb0 :: c0 :: c1 :: c2 :: c3 :: rest) 2 = c1 := rfl
  have hb3 : byteAt (tb0 :: c0 :: c1 :: c2 :: c3 :: rest) 3 = c2 := rfl
  have hb4 : byteAt (tb0 :: c0 :: c1 :: c2 :: c3 :: rest) 4 = c3 := rfl
  have hlen : (tb0 :: c0 :: c1 :: c2 :: c3 :: rest).length = rest.length + 5 := by
    simp
  simp only [dTag, hb0, hb1, hb2, hb3, hb4, hlen, hm, hc]
  rw [if_neg (show ¬ (0 ≥ rest.length + 5) by omega),
    if_neg (show ¬ Len4 = Len1 by decide),
    if_neg (show ¬ Len4 = Len2 by decide),
    if_pos trivial,
    if_neg (show ¬ (0 + 1 + 4 > rest.length + 5) by omega)]

/-- The byte forms `Encoder.Tag` can produce, by length range. -/
theorem eTag_shape (t l : Nat) (tb : List Nat) (h : eTag [] t l = .ok tb) :
    (l < Len1 ∧ tb = [t ||| l]) ∨
    (Len1 ≤ l ∧ l < 380 ∧ tb = [t ||| Len1, l - Len1]) ∨
    (380 ≤ l ∧ l < 65916 ∧ tb = [t ||| Len2, (l - 380) % 256, (l - 380) / 256]) ∨
    (65916 ≤ l ∧ l < 65916 + (0x100000000 - 8) ∧
      tb = [t ||| Len4, (l - 65916) % 256, (l - 65916) / 256 % 256,
        (l - 65916) / 65536 % 256, (l - 65916) / 16777216 % 256]) := by
  have eL1 : Len1 = 124 := rfl
  have eL2 : Len2 = 125 := rfl
  have eL4 : Len4 = 126 := rfl
  simp only [eTag, eL1, eL2, eL4, List.nil_append] at h
  rcases Nat.lt_or_ge l 124 with hl | hl
  · rw [if_pos hl] at h
    exact Or.inl ⟨hl, ((Except.ok.injEq _ _).mp h).symm⟩
  · rcases Nat.lt_or_ge (l - 124) 0x100 with hl2 | hl2
    · rw [if_neg (by omega), if_pos hl2] at h
      refine Or.inr (Or.inl ⟨by omega, by omega, ?_⟩)
      rw [← ((Except.ok.injEq _ _).mp h), eL1]
      have : (l - 124) % 256 = l - 124 := Nat.mod_eq_of_lt hl2
      rw [this]
    · rcases Nat.lt_or_ge (l - 124 - 0x100) 0x10000 with hl3 | hl3
      · rw [if_neg (by omega), if_neg (by omega), if_pos hl3] at h
        refine Or.inr (Or.inr (Or.inl ⟨by omega, by omega, ?_⟩))
        rw [← ((Except.ok.injEq _ _).mp h), eL2]
        have h1 : l - 124 - 0x100 = l - 380 := by omega
        have h2 : (l - 380) / 256 % 256 = (l - 380) / 256 := by
          apply Nat.mod_eq_of_lt
          omega
        rw [h1, h2]
      · have hl4 : l - 124 - 0x100 - 0x10000 < 0x100000000 - 8 := by
          by_contra hcon
          rw [if_neg (by omega), if_neg (by omega), if_neg (by omega),
            if_neg (by omega)] at h
          exact Except.noConfusion h
        rw [if_neg (by omega), if_neg (by omega), if_neg (by omega),
          if_pos hl4] at h
        refine Or.inr (Or.inr (Or.inr ⟨by omega, by omega, ?_⟩))
        rw [← ((Except.ok.injEq _ _).mp h), eL4]
        have h1 : l - 124 - 0x100 - 0x10000 = l - 65916 := by omega
        rw [h1]

/-- Decoding inverts encoding for tag/length pairs: whatever byte form
`Encoder.Tag` produced for `(t, l)`, `Decoder.Tag` parses it back from the
head of any buffer, consuming exactly the produced bytes. -/
theorem dTag_eTag (t l : Nat) (tb rest : List Nat)
    (ht : t = LiteralTag ∨ t = CopyTag) (h : eTag [] t l = .ok tb) :
    dTag (tb ++ rest) 0 = .ok (t, l, tb.length) ∧
      1 ≤ tb.length ∧ byteAt tb 0 &&& TagMask = t := by
  rcases eTag_shape t l tb h with ⟨hl, htb⟩ | ⟨hl, hl2, htb⟩ |
    ⟨hl, hl2, htb⟩ | ⟨hl, hl2, htb⟩ <;> subst htb
  · obtain ⟨hm, hc⟩ := tag_byte_split t l ht (by
      simp only [show Len1 = 124 from rfl] at hl
      omega)
    refine ⟨?_, by simp, by simpa [byteAt] using hm⟩
    simp only [List.cons_append, List.nil_append, List.length_cons,
      List.length_nil]
    exact dTag_cons_small _ t l rest hm hc hl
  · obtain ⟨hm, hc⟩ := tag_byte_split t Len1 ht (by decide)
    refine ⟨?_, by simp, by simpa [byteAt] using hm⟩
    simp only [List.cons_append, List.nil_append, List.length_cons,
      List.length_nil]
    rw [dTag_cons_len1 _ t (l - Len1) rest hm hc]
    have : Len1 + (l - Len1) = l := by
      have hl' : 124 ≤ l := hl
      simp only [show Len1 = 124 from rfl]
      omega
    rw [this]
  · obtain ⟨hm, hc⟩ := tag_byte_split t Len2 ht (by decide)
    refine ⟨?_, by simp, by simpa [byteAt] using hm⟩
    simp only [List.cons_append, List.nil_append, List.length_cons,
      List.length_nil]
    rw [dTag_cons_len2 _ t ((l - 380) % 256) ((l - 380) / 256) rest hm hc]
    have hrec : (l - 380) % 256 ||| ((l - 380) / 256) <<< 8 = l - 380 := by
      rw [lor_two_pow_low _ _ _ (by omega)]
      have : (l - 380) / 256 * 2 ^ 8 = 256 * ((l - 380) / 256) := by ring
      rw [this]
      omega
    rw [hrec]
    have : Len1 + 0x100 + (l - 380) = l := by
      simp only [show Len1 = 124 from rfl]
      omega
    rw [this]
  · obtain ⟨hm, hc⟩ := tag_byte_split t Len4 ht (by decide)
    refine ⟨?_, by simp, by simpa [byteAt] using hm⟩
    simp only [List.cons_append, List.nil_append, List.length_cons,
      List.length_nil]
    rw [dTag_cons_len4 _ t _ _ _ _ rest hm hc]
    have hrec : (l - 65916) % 256 ||| ((l - 65916) / 256 % 256) <<< 8 |||
        ((l - 65916) / 65536 % 256) <<< 16 |||
        ((l - 65916) / 16777216 % 256) <<< 24 = l - 65916 := by
      rw [lor4_eq _ _ _ _ (by omega) (by omega) (by omega)]
      omega
    rw [hrec]
    have : Len1 + 0x100 + 0x10000 + (l - 65916) = l := by
      simp only [show Len1 = 124 from rfl]
      omega
    rw [this]

/-! ## Claim C6: the `Len2` length form -/

/-- Claim C6 counterexample: the claimed `Len2` interval upper bound
66015 is wrong.  The largest length the `Len2` form can decode to is
`124 + 256 + 0xffff = 65915`, and encoding 66015 produces the `Len4`
form (lead byte `254 = Copy|Len4`), not the `Len2` form
(`253 = Copy|Len2`). -/
theorem c6_len2_counterexample :
    dTag [253, 255, 255] 0 = .ok (CopyTag, 65915, 3) ∧ 65915 < 66015 ∧
      eTag [] CopyTag 66015 = .ok [254, 99, 0, 0, 0] ∧
      254 &&& TagLenMask = Len4 ∧ Len4 ≠ Len2 := by decide

/-- Claim C6, amended: the `Len2` interval is `[380, 65915]`.  A tag byte
whose low 7 bits equal `Len2 = 125` followed by bytes `b0 b1` decodes to
length `124 + 256 + (b0 | b1<<8)`; the set of lengths representable in the
`Len2` form is exactly `[380, 65915]`; and encoding any length in that
interval produces the `Len2` form, which decodes back to the same
value. -/
theorem c6_len2_amended (t b0 b1 l : Nat) (ht : t &&& TagLenMask = Len2)
    (hb0 : b0 < 256) (hb1 : b1 < 256) :
    (dTag [t, b0, b1] 0 = .ok (t &&& TagMask, Len1 + 0x100 + (b0 ||| b1 <<< 8), 3)
      ∧ Len1 + 0x100 + (b0 ||| b1 <<< 8) = 380 + b0 + 256 * b1) ∧
    ((380 ≤ l ∧ l ≤ 65915) ↔
      ∃ a0 a1, a0 < 256 ∧ a1 < 256 ∧ Len1 + 0x100 + (a0 ||| a1 <<< 8) = l) ∧
    (380 ≤ l → l ≤ 65915 →
      eTag [] CopyTag l = .ok [CopyTag ||| Len2, (l - 380) % 256, (l - 380) / 256]
        ∧ dTag [CopyTag ||| Len2, (l - 380) % 256, (l - 380) / 256] 0 =
            .ok (CopyTag, l, 3)) := by
  have hsum : ∀ a0 a1 : Nat, a0 < 256 →
      Len1 + 0x100 + (a0 ||| a1 <<< 8) = 380 + a0 + 256 * a1 := by
    intro a0 a1 h0
    rw [lor_two_pow_low _ _ _ (by omega)]
    simp only [show Len1 = 124 from rfl]
    norm_num
    omega
  refine ⟨⟨?_, hsum b0 b1 hb0⟩, ⟨?_, ?_⟩, ?_⟩
  · have := dTag_cons_len2 t (t &&& TagMask) b0 b1 [] rfl ht
    simpa using this
  · rintro ⟨h1, h2⟩
    refine ⟨(l - 380) % 256, (l - 380) / 256, Nat.mod_lt _ (by omega), by omega, ?_⟩
    rw [hsum _ _ (Nat.mod_lt _ (by omega))]
    omega
  · rintro ⟨a0, a1, h0, h1, hval⟩
    rw [hsum a0 a1 h0] at hval
    omega
  · intro h1 h2
    have henc : eTag [] CopyTag l =
        .ok [CopyTag ||| Len2, (l - 380) % 256, (l - 380) / 256] := by
      simp only [eTag, show Len1 = 124 from rfl, show Len2 = 125 from rfl,
        List.nil_append]
      rw [if_neg (by omega), if_neg (by omega), if_pos (by omega)]
      have ha : l - 124 - 0x100 = l - 380 := by omega
      have hb : (l - 380) / 256 % 256 = (l - 380) / 256 := by
        apply Nat.mod_eq_of_lt
        omega
      rw [ha, hb]
    refine ⟨henc, ?_⟩
    have hd := dTag_cons_len2 (CopyTag ||| Len2) CopyTag ((l - 380) % 256)
      ((l - 380) / 256) [] (copy_lor_facts Len2 (by decide)).1
      (copy_lor_facts Len2 (by decide)).2.1
    rw [hd]
    have : Len1 + 0x100 + ((l - 380) % 256 ||| ((l - 380) / 256) <<< 8) = l := by
      rw [hsum _ _ (Nat.mod_lt _ (by omega))]
      have : (l - 380) / 256 < 256 := by omega
      omega
    rw [this]

/-- Witness for `c6_len2_amended` at `t = 0xfd`, `b0 = 120`, `b1 = 0`,
`l = 500`. -/
theorem c6_len2_amended_witness :
    dTag [0xfd, 120, 0] 0 = .ok (0xfd &&& TagMask, Len1 + 0x100 + (120 ||| 0 <<< 8), 3) :=
  (c6_len2_amended 0xfd 120 0 500 (by decide) (by decide) (by decide)).1.1

/-! ## Claim C3: the run-length-zeros stream and the version gate -/

/-- Claim C3 counterexample: decoding `Meta MetaReset 2, Meta MetaVer 1,
Copy|10 OffLong 0` does NOT succeed in this tree: `Version = 0`, so the
`MetaVer` payload 1 is rejected with the unsupported-version error and no
bytes are delivered (the source's own `TestUnsupportedVersion` expects
exactly this rejection, and its `TestZeroRegion` uses payload 0). -/
theorem c3_zero_region_counterexample :
    ((NewReaderBytes [0x80, 16, 2, 0x80, 8, 1, 0x8a, 255, 0]).Read 16).2 =
      ([], some RErr.unsupportedVersion) := by decide

/-- Claim C3, amended: with a `MetaVer` payload of `0` (the supported
version in this tree, `Version = 0`) the stream `Meta MetaReset 2,
Meta MetaVer 0, Copy|10 OffLong 0` decodes to exactly ten zero bytes
(followed by end of input); the payload-1 variant fails with the
unsupported-version error. -/
theorem c3_zero_region_amended :
    ((NewReaderBytes [0x80, 16, 2, 0x80, 8, 0, 0x8a, 255, 0]).Read 16).2 =
      (List.replicate 10 0, some RErr.eof) ∧ Version = 0 ∧
    ((NewReaderBytes [0x80, 16, 2, 0x80, 8, 1, 0x8a, 255, 0]).Read 16).2.2 =
      some RErr.unsupportedVersion := by decide

/-- One-step unfolding of the `readTags` loop at positive fuel. -/
theorem readTags_succ (r : RState) (i fuel : Nat) :
    readTags r i (fuel + 1) =
      (if r.state = 0 then
        let (r1, i1, e) := readTag r i
        match e with
        | some e1 => (r1, i1, some e1)
        | none => readTags r1 i1 fuel
      else (r, i, none)) := rfl

/-- One-step unfolding of the `Reader.Read` loop at positive fuel. -/
theorem readLoop_succ (r : RState) (plen : Nat) (acc : List Nat)
    (err : Option RErr) (fuel : Nat) :
    readLoop r plen acc err (fuel + 1) =
      (if acc.length < plen ∧ err = none then
        let t := readOne r (plen - acc.length) r.i
        let r2 := { t.1 with i := t.2.1 }
        let out := t.2.2.1
        let e := t.2.2.2
        let acc1 := acc ++ out
        if acc1.length = plen then (r2, acc1, e)
        else if e ≠ some .shortBuffer then readLoop r2 plen acc1 e fuel
        else
          let e1 := if r2.state ≠ 0 ∨ r2.i < r2.b.length then some RErr.unexpectedEOF
                    else some RErr.eof
          readLoop r2 plen acc1 e1 fuel
      else (r, acc, err)) := rfl

/-- `readLoop` returns immediately once an error is latched. -/
theorem readLoop_err (r : RState) (plen : Nat) (acc : List Nat) (e : RErr)
    (fuel : Nat) : readLoop r plen acc (some e) fuel = (r, acc, some e) := by
  cases fuel with
  | zero => rfl
  | succ fuel =>
    rw [readLoop_succ, if_neg]
    simp

/-- One `readLoop` iteration described by the outcome of `readOne`. -/
theorem readLoop_step (r r1 : RState) (i1 plen : Nat) (acc out : List Nat)
    (e : Option RErr) (fuel : Nat) (hlen : acc.length < plen)
    (hro : readOne r (plen - acc.length) r.i = (r1, i1, out, e)) :
    readLoop r plen acc none (fuel + 1) =
      if (acc ++ out).length = plen then ({ r1 with i := i1 }, acc ++ out, e)
      else if e ≠ some .shortBuffer then
        readLoop { r1 with i := i1 } plen (acc ++ out) e fuel
      else
        readLoop { r1 with i := i1 } plen (acc ++ out)
          (if ({ r1 with i := i1 }).state ≠ 0 ∨
              ({ r1 with i := i1 }).i < ({ r1 with i := i1 }).b.length then
            some RErr.unexpectedEOF
          else some RErr.eof) fuel := by
  rw [readLoop_succ, if_pos ⟨hlen, rfl⟩, hro]

/-- `Decoder.Meta` on a meta byte whose length code is below
`MetaLenWide`: the payload length is `1 << code`. -/
theorem dMeta_cons_pow (m0 : Nat) (b : List Nat) (st : Nat)
    (hst : st < b.length) (hb : byteAt b st = m0)
    (hl : m0 &&& MetaLenMask < MetaLenWide) :
    dMeta b st = .ok (m0 &&& MetaTagMask, 1 <<< (m0 &&& MetaLenMask), st + 1) := by
  have h7 : MetaLen0 = 7 := rfl
  have h6 : MetaLenWide = 6 := rfl
  simp only [dMeta, hb]
  rw [if_neg (by omega : ¬ st = b.length),
    if_neg (by omega : ¬ m0 &&& MetaLenMask = MetaLen0),
    if_pos hl]

/-! ## Claim C7: `MetaReset` beyond `BlockSizeLimit` -/

/-- Claim C7 counterexample: a `MetaReset` whose window would exceed the
configured `BlockSizeLimit` fails with `ErrOverflow`, not with
`ErrBlockSizeOverLimit` (the latter is returned by `readTag` for an
element length over the limit).  Here the limit is 1024 and the payload
asks for `2^11 = 2048` bytes. -/
theorem c7_reset_limit_counterexample :
    (({ b := [0x80, 0x10, 11], blockSizeLimit := 1024 } : RState).Read 10).2 =
      ([], some RErr.overflow) ∧ RErr.overflow ≠ RErr.blockSizeOverLimit := by
  decide

/-- Claim C7, amended: for every nonzero `BlockSizeLimit` and every
`MetaReset` payload `bs` whose window `1 << bs` exceeds the limit,
reading the stream delivers zero bytes and fails with the `Overflow`
error (a value distinct from `BlockSizeOverLimit`). -/
theorem c7_reset_over_limit (bs limit plen : Nat) (hlim : limit ≠ 0)
    (hbs : 1 <<< bs > limit) (hplen : 1 ≤ plen) :
    (({ b := [MetaTagByte, MetaReset, bs], blockSizeLimit := limit } : RState).Read
        plen).2 = ([], some RErr.overflow) := by
  set r0 : RState := { b := [MetaTagByte, MetaReset, bs], blockSizeLimit := limit }
    with hr0
  have hskip : skipZeros r0.b 0 = 0 := by rw [hr0]; rfl
  have hdt : dTag r0.b 0 = .ok (0x80, 0, 1) := by
    rw [hr0]
    exact dTag_cons_small 0x80 0x80 0 [MetaReset, bs] (by decide) (by decide)
      (by decide)
  have hdm : dMeta r0.b 1 = .ok (16, 1, 2) := by
    rw [hr0]
    have := dMeta_cons_pow 16 [MetaTagByte, MetaReset, bs] 1 (by simp)
      rfl (by decide)
    rw [this]
    decide
  have hb2 : byteAt r0.b 2 = bs := by rw [hr0]; rfl
  have hlimf : r0.blockSizeLimit = limit := by rw [hr0]
  have hblen : r0.b.length = 3 := by rw [hr0]; rfl
  have hrm : r0.requireMagic = false := by rw [hr0]
  have htag : readTag r0 0 = (r0, 0, some RErr.overflow) := by
    simp only [readTag, hskip, hdt]
    rw [if_neg (by simp [hrm])]
    rw [if_pos (show (128 : Nat) = MetaTagByte ∧ True from ⟨rfl, trivial⟩)]
    simp only [continueMetaTag, hdm]
    rw [if_neg (by simp [hrm])]
    rw [if_neg (by simp [hblen])]
    rw [if_neg (by decide)]
    rw [if_neg (by decide)]
    rw [if_neg (by decide)]
    rw [if_pos (show (16 : Nat) = MetaReset from rfl)]
    simp only [hb2, hlimf]
    rw [if_pos (Or.inr (Or.inr ⟨hlim, hbs⟩))]
  have hts : readTags r0 0 (r0.b.length + 1) = (r0, 0, some RErr.overflow) := by
    rw [hblen, readTags_succ, if_pos (show r0.state = 0 from by rw [hr0]), htag]
  have hone : readOne r0 (plen - ([] : List Nat).length) r0.i =
      (r0, 0, [], some RErr.overflow) := by
    simp only [readOne, hts]
  show (readLoop r0 plen [] none (plen + 2)).2 = ([], some RErr.overflow)
  rw [show plen + 2 = (plen + 1) + 1 from rfl]
  rw [readLoop_step r0 r0 0 plen [] [] (some RErr.overflow) (plen + 1)
    (by simpa using hplen) hone]
  rw [if_neg (by simp; omega)]
  rw [if_pos (by decide)]
  rw [readLoop_err]
  rfl

/-- Witness for C7 at `bs = 11`, `limit = 1024`, `plen = 10`. -/
theorem c7_reset_over_limit_witness :
    (1024 : Nat) ≠ 0 ∧ 1 <<< 11 > 1024 ∧ 1 ≤ 10 ∧
    (({ b := [MetaTagByte, MetaReset, 11], blockSizeLimit := 1024 } : RState).Read
        10).2 = ([], some RErr.overflow) :=
  ⟨by decide, by decide, by decide,
    c7_reset_over_limit 11 1024 10 (by decide) (by decide) (by decide)⟩

/-- One-step unfolding of the zero-padding skip loop at positive fuel. -/
theorem skipZerosF_succ (b : List Nat) (fuel i : Nat) :
    skipZerosF b (fuel + 1) i =
      if i < b.length ∧ byteAt b i = 0 then skipZerosF b fuel (i + 1) else i := rfl

/-! ## Claim C10: data element with no established window -/

/-- Claim C10 counterexample: when the first element is a `Copy` with a
positive offset and no window has been established, `Read` fails with
`ErrOverflow` (the `off > len(block)` check in `readTag`), not with the
`"missed meta"` error.  Here `0x86` is `Copy|6` and the offset byte is
`0`, decoding to offset `6 > 0`. -/
theorem c10_no_window_counterexample :
    ((NewReaderBytes [0x86, 0]).Read 4).2 = ([], some RErr.overflow) ∧
      RErr.overflow ≠ RErr.missedMeta := by
  decide

/-- Claim C10, amended: when the first non-padding element is a `Literal`
(any head byte in `[1, 123]`, any payload), a fresh reader delivers no
bytes and fails with the `"missed meta"` error; but a `Copy` element with
a positive offset instead fails with `ErrOverflow`. -/
theorem c10_literal_missed_meta (t plen : Nat) (rest : List Nat)
    (ht1 : 1 ≤ t) (ht2 : t ≤ 123) (hplen : 1 ≤ plen) :
    ((NewReaderBytes (t :: rest)).Read plen).2 = ([], some RErr.missedMeta) := by
  set r0 : RState := NewReaderBytes (t :: rest) with hr0
  have hand := (show ∀ x < 124, x &&& 128 = 0 ∧ x &&& 127 = x from by decide)
    t (by omega)
  have hskip : skipZeros r0.b 0 = 0 := by
    rw [hr0]
    show skipZerosF (t :: rest) ((t :: rest).length + 1 - 0) 0 = 0
    have he : (t :: rest).length + 1 - 0 = rest.length + 1 + 1 := by simp
    rw [he, skipZerosF_succ, if_neg]
    intro h
    have hb : byteAt (t :: rest) 0 = t := rfl
    rw [hb] at h
    omega
  have hdt : dTag r0.b 0 = .ok (0, t, 1) := by
    rw [hr0]
    exact dTag_cons_small t 0 t rest hand.1 hand.2
      (by simp only [show Len1 = 124 from rfl]; omega)
  have hrm : r0.requireMagic = false := by rw [hr0]; rfl
  have hbsl : r0.blockSizeLimit = 0 := by rw [hr0]; rfl
  have hblen : r0.b.length = rest.length + 1 := by rw [hr0]; rfl
  have htag : readTag r0 0 = ({ r0 with state := 108, off := 0, len := t }, 1, none) := by
    simp only [readTag, hskip, hdt]
    rw [if_neg (by simp [hrm])]
    rw [if_neg (fun h => absurd h.1 (by decide))]
    rw [if_neg (by simp [hbsl])]
    rw [if_pos (show (0 : Nat) = LiteralTag from rfl)]
  have hts : readTags r0 0 (r0.b.length + 1) =
      ({ r0 with state := 108, off := 0, len := t }, 1, none) := by
    rw [hblen, readTags_succ, if_pos (show r0.state = 0 from by rw [hr0]; rfl), htag]
    show readTags ({ r0 with state := 108, off := 0, len := t }) 1
      (rest.length + 1) = _
    rw [readTags_succ, if_neg (fun h => absurd (h : (108 : Nat) = 0) (by decide))]
  have hone : readOne r0 (plen - ([] : List Nat).length) r0.i =
      ({ r0 with state := 108, off := 0, len := t }, 0, [],
        some RErr.missedMeta) := by
    have hblock : (({ r0 with state := 108, off := 0, len := t } : RState)).block.length = 0 := by
      rw [hr0]; rfl
    have hi : r0.i = 0 := by rw [hr0]; rfl
    simp only [readOne, hi, hts]
    rw [if_pos hblock]
  show (readLoop r0 plen [] none (plen + 2)).2 = ([], some RErr.missedMeta)
  rw [show plen + 2 = (plen + 1) + 1 from rfl]
  rw [readLoop_step r0 ({ r0 with state := 108, off := 0, len := t }) 0 plen
    [] [] (some RErr.missedMeta) (plen + 1) (by simpa using hplen) hone]
  rw [if_neg (by simp; omega)]
  rw [if_pos (by decide)]
  rw [readLoop_err]
  rfl

/-- Witness for C10 at `t = 5` (a `Literal|5` head byte), payload
`[1, 2, 3, 4, 5]`, `plen = 3`. -/
theorem c10_literal_missed_meta_witness :
    ((1 : Nat) ≤ 5 ∧ (5 : Nat) ≤ 123 ∧ (1 : Nat) ≤ 3) ∧
    ((NewReaderBytes (5 :: [1, 2, 3, 4, 5])).Read 3).2 =
      ([], some RErr.missedMeta) :=
  ⟨by decide, c10_literal_missed_meta 5 3 [1, 2, 3, 4, 5] (by decide) (by decide)
    (by decide)⟩

/-- `byteAt` on an append reads from the left part below its length. -/
theorem byteAt_append_lt (l l' : List Nat) (n : Nat) (h : n < l.length) :
    byteAt (l ++ l') n = byteAt l n := by
  simp [byteAt, List.getD_eq_getElem?_getD, List.getElem?_append_left h]

/-- `byteAt` on `l ++ [x, y]` at position `l.length` is `x`. -/
theorem byteAt_append2_fst (l : List Nat) (x y : Nat) :
    byteAt (l ++ [x, y]) l.length = x := by
  rw [byteAt, List.getD_eq_getElem?_getD, List.getElem?_append_right (Nat.le_refl _)]
  simp

/-- `byteAt` on `l ++ [x, y]` at position `l.length + 1` is `y`. -/
theorem byteAt_append2_snd (l : List Nat) (x y : Nat) :
    byteAt (l ++ [x, y]) (l.length + 1) = y := by
  rw [byteAt, List.getD_eq_getElem?_getD, List.getElem?_append_right (by omega)]
  simp

/-- `Decoder.Offset` on the reserved `OffLong, 0` byte pair decodes to
offset `0`, consuming both bytes, for every element length. -/
theorem dOffset_long_zero (tb : List Nat) (l : Nat) :
    dOffset (tb ++ [OffLong, 0]) tb.length l = .ok (0, tb.length + 2) := by
  have hlen : (tb ++ [OffLong, 0]).length = tb.length + 2 := by simp
  have hb0 : byteAt (tb ++ [OffLong, 0]) tb.length = OffLong :=
    byteAt_append2_fst tb OffLong 0
  have hb1 : byteAt (tb ++ [OffLong, 0]) (tb.length + 1) = 0 :=
    byteAt_append2_snd tb OffLong 0
  have hbo : dBasicOffset (tb ++ [OffLong, 0]) (tb.length + 1) =
      .ok (0, tb.length + 2) := by
    simp only [dBasicOffset, hlen, hb1]
    rw [if_neg (by omega : ¬ tb.length + 1 = tb.length + 2),
      if_neg (by decide : ¬ (0 : Nat) = Off1),
      if_neg (by decide : ¬ (0 : Nat) = Off2),
      if_neg (by decide : ¬ (0 : Nat) = Off4),
      if_neg (by decide : ¬ (0 : Nat) = OffAlt)]
  simp only [dOffset, hlen, hb0]
  rw [if_neg (by omega : ¬ tb.length = tb.length + 2)]
  simp only [if_true]
  rw [hbo]

/-! ## Claim C8: `Copy N OffLong 0` emits `N` zero bytes -/

/-- Claim C8: with any window `blk` in place (any mask and position), the
element `Copy` with length `N ≥ 1` followed by the offset bytes
`OffLong, 0` delivers exactly `N` zero bytes and appends them to the
window, whatever the window holds.  The tag bytes `tb` are whatever
`Encoder.Tag` produces for `(Copy, N)`. -/
theorem c8_zero_region (N : Nat) (blk : List Nat) (msk pos : Nat)
    (tb : List Nat) (hN : 1 ≤ N) (hblk : blk.length ≠ 0)
    (htb : eTag [] CopyTag N = .ok tb) :
    ({ block := blk, mask := msk, pos := pos,
       b := tb ++ [OffLong, 0] } : RState).Read N =
      (({ block := (blockWrite blk msk pos (List.replicate N 0)).1, mask := msk,
          pos := (blockWrite blk msk pos (List.replicate N 0)).2,
          state := 0, off := (pos : Int), len := 0, b := tb ++ [OffLong, 0],
          i := tb.length + 2 } : RState), List.replicate N 0, none) := by
  set r0 : RState := { block := blk, mask := msk, pos := pos, b := tb ++ [OffLong, 0] } with hr0
  obtain ⟨hdt0, htbl, hmask⟩ := dTag_eTag CopyTag N tb [OffLong, 0]
    (Or.inr rfl) htb
  have hb0ne : byteAt (tb ++ [OffLong, 0]) 0 ≠ 0 := by
    intro h0
    have hb0tb : byteAt (tb ++ [OffLong, 0]) 0 = byteAt tb 0 :=
      byteAt_append_lt tb _ 0 (by omega)
    rw [hb0tb] at h0
    rw [h0] at hmask
    exact absurd hmask (by decide)
  have hskip : skipZeros r0.b 0 = 0 := by
    rw [hr0]
    show skipZerosF (tb ++ [OffLong, 0]) ((tb ++ [OffLong, 0]).length + 1 - 0)
      0 = 0
    have he : (tb ++ [OffLong, 0]).length + 1 - 0 = (tb.length + 2) + 1 := by
      simp
    rw [he, skipZerosF_succ, if_neg]
    intro h
    exact hb0ne h.2
  have hdt : dTag r0.b 0 = .ok (CopyTag, N, tb.length) := by
    rw [hr0]; exact hdt0
  have hrm : r0.requireMagic = false := by rw [hr0]
  have hbsl : r0.blockSizeLimit = 0 := by rw [hr0]
  have hblen : r0.b.length = tb.length + 2 := by rw [hr0]; simp
  have hposp : r0.pos = pos := by rw [hr0]
  have hdoff : dOffset r0.b tb.length N = .ok (0, tb.length + 2) := by
    rw [hr0]; exact dOffset_long_zero tb N
  have hpos0 : (r0.pos : Int) - ((0 : Nat) : Int) = (pos : Int) := by
    rw [hr0]; simp
  have htag : readTag r0 0 =
      ({ r0 with state := 99, off := (pos : Int), len := N },
        tb.length + 2, none) := by
    simp only [readTag, hskip, hdt]
    rw [if_neg (by simp [hrm])]
    rw [if_neg (fun h => absurd h.2 (by omega))]
    rw [if_neg (by simp [hbsl])]
    rw [if_neg (by decide : ¬ CopyTag = LiteralTag)]
    rw [hdoff]
    show (if (0 : Nat) > r0.block.length then (r0, 0, some RErr.overflow)
      else ({ r0 with state := 99, off := (r0.pos : Int) - ((0 : Nat) : Int), len := N }, tb.length + 2, none)) = _
    rw [if_neg (by omega : ¬ (0 : Nat) > r0.block.length)]
    rw [hpos0]
  have hts : readTags r0 0 (r0.b.length + 1) =
      ({ r0 with state := 99, off := (pos : Int), len := N },
        tb.length + 2, none) := by
    rw [hblen, readTags_succ, if_pos (show r0.state = 0 from by rw [hr0]), htag]
    show readTags ({ r0 with state := 99, off := (pos : Int), len := N })
      (tb.length + 2) (tb.length + 1 + 1) = _
    rw [readTags_succ, if_neg (fun h => absurd (h : (99 : Nat) = 0) (by decide))]
  have hi : r0.i = 0 := by rw [hr0]
  have hone : readOne r0 (N - ([] : List Nat).length) r0.i =
      ({ r0 with state := 0, off := (pos : Int), len := 0,
                 block := (blockWrite blk msk pos (List.replicate N 0)).1,
                 pos := (blockWrite blk msk pos (List.replicate N 0)).2 },
        tb.length + 2, List.replicate N 0, none) := by
    have hb1 : ¬ ({ r0 with state := 99, off := (pos : Int), len := N } : RState).block.length = 0 := by
      rw [hr0]; exact hblk
    simp only [readOne, hi, hts, List.length_nil, Nat.sub_zero]
    rw [if_neg hb1]
    rw [if_neg (fun h => absurd (h.1 : (99 : Nat) = 108) (by decide))]
    rw [if_neg (fun h => absurd (h : (99 : Nat) = 108) (by decide))]
    rw [if_neg (show ¬ ((pos : Int) + (N : Int) ≤
      (({ r0 with state := 99, off := (pos : Int), len := N } : RState).pos : Int))
      from by simp only [hposp]; omega)]
    simp only [if_true]
    simp only [finishRead, min_self, Nat.min_self, List.length_replicate,
      Nat.sub_self]
    rfl
  show readLoop r0 N [] none (N + 2) = _
  rw [show N + 2 = (N + 1) + 1 from rfl]
  rw [readLoop_step r0 _ (tb.length + 2) N [] (List.replicate N 0) none (N + 1)
    (by simpa using hN) hone]
  simp only [List.nil_append, List.length_replicate, eq_self_iff_true, if_true]

/-- Witness for C8 at `N = 3`, window `[7, 7, 7, 7]`, mask `3`, position
`1`, tag bytes `[0x83]` (`Copy|3`). -/
theorem c8_zero_region_witness :
    ((1 : Nat) ≤ 3 ∧ ([7, 7, 7, 7] : List Nat).length ≠ 0 ∧
      eTag [] CopyTag 3 = .ok [0x83]) ∧
    ({ block := [7, 7, 7, 7], mask := 3, pos := 1,
       b := [0x83] ++ [OffLong, 0] } : RState).Read 3 =
      (({ block := (blockWrite [7, 7, 7, 7] 3 1 (List.replicate 3 0)).1,
          mask := 3, pos := (blockWrite [7, 7, 7, 7] 3 1 (List.replicate 3 0)).2,
          state := 0, off := ((1 : Nat) : Int), len := 0,
          b := [0x83] ++ [OffLong, 0],
          i := ([0x83] : List Nat).length + 2 } : RState),
       List.replicate 3 0, none) :=
  ⟨⟨by decide, by decide, by decide⟩,
    c8_zero_region 3 [7, 7, 7, 7] 3 1 [0x83] (by decide) (by decide) (by decide)⟩

/-! ## Writer buffer lemmas: every emission appends to `w.b` and leaves
`written` untouched -/

/-- `Encoder.Tag` only appends bytes to the buffer it is given. -/
theorem eTag_extends (b : List Nat) (t l : Nat) (b' : List Nat)
    (h : eTag b t l = .ok b') : ∃ s, b' = b ++ s := by
  simp only [eTag] at h
  split_ifs at h with h1 h2 h3 h4
  · exact ⟨_, ((Except.ok.injEq _ _).mp h).symm⟩
  · exact ⟨_, ((Except.ok.injEq _ _).mp h).symm⟩
  · exact ⟨_, ((Except.ok.injEq _ _).mp h).symm⟩
  · exact ⟨_, ((Except.ok.injEq _ _).mp h).symm⟩

/-- `Encoder.Offset` only appends bytes to the buffer it is given. -/
theorem eOffset_extends (b : List Nat) (off0 : Int) (l : Nat) (b' : List Nat)
    (h : eOffset b off0 l = .ok b') : ∃ s, b' = b ++ s := by
  simp only [eOffset] at h
  split_ifs at h with h0 h1 h2 h3 h4
  all_goals first
    | exact ⟨_, ((Except.ok.injEq _ _).mp h).symm⟩
    | exact ⟨_, by rw [← ((Except.ok.injEq _ _).mp h), List.append_assoc]⟩

/-- Inversion for a successful `Except` bind. -/
theorem exbind_ok {ε α β : Type} (x : Except ε α) (f : α → Except ε β) (c : β)
    (h : x >>= f = .ok c) : ∃ b, x = .ok b ∧ f b = .ok c := by
  cases x with
  | error e => exact Except.noConfusion h
  | ok b => exact ⟨b, rfl, h⟩

/-- `Writer.appendLiteral` appends to the output buffer and leaves the
`written` counter alone. -/
theorem appendLiteral_b (w : WState) (d : List Nat) (st en : Nat) (w' : WState)
    (h : w.appendLiteral d st en = .ok w') :
    (∃ s, w'.b = w.b ++ s) ∧ w'.written = w.written := by
  rw [WState.appendLiteral] at h
  rcases he : eTag w.b LiteralTag (en - st) with e | b2
  · rw [he] at h
    exact Except.noConfusion h
  · rw [he] at h
    obtain ⟨s, hs⟩ := eTag_extends _ _ _ _ he
    have hw : w' = { w with b := b2 ++ (d.drop st).take (en - st) } :=
      ((Except.ok.injEq _ _).mp h).symm
    exact ⟨⟨s ++ (d.drop st).take (en - st), by rw [hw]; simp [hs]⟩,
      by rw [hw]⟩

/-- `Writer.appendCopy` appends to the output buffer and leaves the
`written` counter alone. -/
theorem appendCopy_b (w : WState) (st en : Int) (w' : WState)
    (h : w.appendCopy st en = .ok w') :
    (∃ s, w'.b = w.b ++ s) ∧ w'.written = w.written := by
  rw [WState.appendCopy] at h
  obtain ⟨b2, he, h⟩ := exbind_ok _ _ _ h
  obtain ⟨b3, ho, h⟩ := exbind_ok _ _ _ h
  obtain ⟨s1, hs1⟩ := eTag_extends _ _ _ _ he
  obtain ⟨s2, hs2⟩ := eOffset_extends _ _ _ _ ho
  have hw : { w with b := b3 } = w' := (Except.ok.injEq _ _).mp h
  exact ⟨⟨s1 ++ s2, by rw [← hw]; show b3 = w.b ++ (s1 ++ s2); rw [hs2, hs1,
    List.append_assoc]⟩, by rw [← hw]⟩

/-- `Writer.writeZeros` appends to the output buffer and leaves the
`written` counter alone. -/
theorem writeZeros_b (w : WState) (p : List Nat) (done i0 : Nat) (w' : WState)
    (d' i' : Nat) (h : w.writeZeros p done i0 = .ok (w', d', i')) :
    (∃ s, w'.b = w.b ++ s) ∧ w'.written = w.written := by
  rw [WState.writeZeros] at h
  by_cases hc : zeroScan1 p (zeroScan8 p i0) - zeroScanBack p done i0 <
    minCopyChunk
  · rw [if_pos hc] at h
    have h1 := (Except.ok.injEq _ _).mp h
    injection h1 with hw hrest
    rw [← hw]
    exact ⟨⟨[], by simp⟩, rfl⟩
  · rw [if_neg hc] at h
    obtain ⟨w1, hw1, h⟩ := exbind_ok _ _ _ h
    have hext1 : (∃ s, w1.b = w.b ++ s) ∧ w1.written = w.written := by
      by_cases hd : done ≠ zeroScanBack p done i0
      · rw [if_pos hd] at hw1
        obtain ⟨w2, ha, hw1⟩ := exbind_ok _ _ _ hw1
        obtain ⟨⟨s, hs⟩, hwr⟩ := appendLiteral_b _ _ _ _ _ ha
        have h2 : w2.copyData p done (zeroScanBack p done i0) = w1 :=
          (Except.ok.injEq _ _).mp hw1
        exact ⟨⟨s, by rw [← h2]; exact hs⟩, by rw [← h2]; exact hwr⟩
      · rw [if_neg hd] at hw1
        have h2 := (Except.ok.injEq _ _).mp hw1
        exact ⟨⟨[], by rw [← h2]; simp⟩, by rw [← h2]⟩
    obtain ⟨b2, he, h⟩ := exbind_ok _ _ _ h
    obtain ⟨s2, hs2⟩ := eTag_extends _ _ _ _ he
    obtain ⟨⟨s1, hs1⟩, hwr1⟩ := hext1
    have h1 := (Except.ok.injEq _ _).mp h
    injection h1 with hw hrest
    refine ⟨⟨s1 ++ s2 ++ [OffLong, 0], ?_⟩, ?_⟩
    · rw [← hw]
      show b2 ++ [OffLong, 0] = w.b ++ (s1 ++ s2 ++ [OffLong, 0])
      rw [hs2, hs1]
      simp [List.append_assoc]
    · rw [← hw]
      exact hwr1

/-- `Writer.writeRunlen` appends to the output buffer and leaves the
`written` counter alone. -/
theorem writeRunlen_b (w : WState) (p : List Nat) (done st i : Nat)
    (w' : WState) (d' i' : Nat)
    (h : w.writeRunlen p done st i = .ok (w', d', i')) :
    (∃ s, w'.b = w.b ++ s) ∧ w'.written = w.written := by
  rw [WState.writeRunlen] at h
  by_cases hz : st + 8 < p.length ∧ read8LE p st = 0
  · rw [if_pos hz] at h
    exact writeZeros_b _ _ _ _ _ _ _ h
  · rw [if_neg hz] at h
    by_cases hskip : (runFwd p st i 0 : Int) - (runBack p done st i (-1) + 1) <
        (minCopyChunk : Int)
    · rw [if_pos hskip] at h
      have h1 := (Except.ok.injEq _ _).mp h
      injection h1 with hw hrest
      rw [← hw]
      exact ⟨⟨[], by simp⟩, rfl⟩
    · rw [if_neg hskip] at h
      by_cases hcut : i - st ≥ w.block.length - 8
      · rw [if_pos hcut] at h
        obtain ⟨w2, ha, h⟩ := exbind_ok _ _ _ h
        obtain ⟨⟨s, hs⟩, hwr⟩ := appendLiteral_b _ _ _ _ _ ha
        have h1 := (Except.ok.injEq _ _).mp h
        injection h1 with hw hrest
        exact ⟨⟨s, by rw [← hw]; exact hs⟩, by rw [← hw]; exact hwr⟩
      · rw [if_neg hcut] at h
        obtain ⟨w2, ha, h⟩ := exbind_ok _ _ _ h
        obtain ⟨⟨s1, hs1⟩, hwr1⟩ := appendLiteral_b _ _ _ _ _ ha
        obtain ⟨b2, he, h⟩ := exbind_ok _ _ _ h
        obtain ⟨s2, hs2⟩ := eTag_extends _ _ _ _ he
        replace hs2 : b2 = w2.b ++ s2 := hs2
        obtain ⟨b3, ho, h⟩ := exbind_ok _ _ _ h
        obtain ⟨s3, hs3⟩ := eOffset_extends _ _ _ _ ho
        have h1 := (Except.ok.injEq _ _).mp h
        injection h1 with hw hrest
        refine ⟨⟨s1 ++ (s2 ++ s3), ?_⟩, ?_⟩
        · rw [← hw]
          show b3 = w.b ++ (s1 ++ (s2 ++ s3))
          rw [hs3, hs2, hs1]
          simp [List.append_assoc]
        · rw [← hw]
          exact hwr1

/-- The scan loop appends to the output buffer and leaves the `written`
counter alone. -/
theorem writeLoop_b (p : List Nat) (start : Nat) : ∀ (fuel : Nat) (w : WState)
    (done i : Nat) (w' : WState) (done' : Nat),
    writeLoop w p start done i fuel = .ok (w', done') →
    (∃ s, w'.b = w.b ++ s) ∧ w'.written = w.written := by
  intro fuel
  induction fuel with
  | zero =>
    intro w done i w' done' h
    exact Except.noConfusion h
  | succ fuel ih =>
    intro w done i w' done' h
    rw [writeLoop] at h
    lift_lets at h
    extract_lets hh posH w1 off eb ist st1 e8 e1 iend0 end0 blit bend d1
      iend1 end1 d2 iend2 end2 jp at h
    by_cases hp4 : i + 4 ≤ p.length
    · rw [if_pos hp4] at h
      by_cases hc2 : -off > (w1.block.length : Int)
      · rw [if_pos hc2] at h
        exact ih w1 _ _ _ _ h
      · rw [if_neg hc2] at h
        by_cases hc3 : 0 ≤ off ∧ (i : Int) > (done : Int) + off
        · rw [if_pos hc3] at h
          rcases hrl : w1.writeRunlen p done (done + off.toNat) i with e |
            ⟨w2, done2, i2⟩
          · rw [hrl] at h
            exact Except.noConfusion h
          · rw [hrl] at h
            obtain ⟨⟨s1, hs1⟩, hwr1⟩ := writeRunlen_b _ _ _ _ _ _ _ _ hrl
            obtain ⟨⟨s2, hs2⟩, hwr2⟩ := ih _ _ _ _ _ h
            refine ⟨⟨s1 ++ s2, ?_⟩, ?_⟩
            · rw [hs2, hs1]
              simp [List.append_assoc]
            · rw [hwr2, hwr1]
        · rw [if_neg hc3] at h
          by_cases hc4 : end2 - st1 < (minCopyChunk : Int)
          · rw [if_pos hc4] at h
            exact ih w1 _ _ _ _ h
          · rw [if_neg hc4] at h
            have hjp : ∀ (wa wb : WState), jp wa = .ok wb →
                (∃ s, wb.b = wa.b ++ s) ∧ wb.written = wa.written := by
              intro wa wb hj
              unfold_let jp at hj
              beta_reduce at hj
              by_cases hov : (wa.pos : Int) - st1 > (wa.block.length : Int)
              · rw [if_pos hov] at hj
                exact Except.noConfusion hj
              · rw [if_neg hov] at hj
                obtain ⟨w3, hc, hj⟩ := exbind_ok _ _ _ hj
                obtain ⟨⟨s3, hs3⟩, hwr3⟩ := appendCopy_b _ _ _ _ hc
                have h4 := (Except.ok.injEq _ _).mp hj
                have hb : wb.b = w3.b := by
                  rw [← h4]
                  split
                  · rfl
                  · rfl
                have hwwr : wb.written = w3.written := by
                  rw [← h4]
                  split
                  · rfl
                  · rfl
                exact ⟨⟨s3, by rw [hb]; exact hs3⟩, by rw [hwwr]; exact hwr3⟩
            by_cases hc5 : (done : Int) < ist
            · rw [if_pos hc5] at h
              rcases ha : w1.appendLiteral p done ist.toNat with e | wa
              · replace h : (match (w1.appendLiteral p done ist.toNat >>=
                    fun w2 => pure (w2.copyData p done ist.toNat) >>=
                    fun y => jp y : Except WErr WState) with
                  | Except.error e => Except.error e
                  | Except.ok w4 =>
                    writeLoop w4 p start iend2.toNat iend2.toNat fuel) =
                    .ok (w', done') := h
                rw [ha] at h
                exact Except.noConfusion h
              · replace h : (match (w1.appendLiteral p done ist.toNat >>=
                    fun w2 => pure (w2.copyData p done ist.toNat) >>=
                    fun y => jp y : Except WErr WState) with
                  | Except.error e => Except.error e
                  | Except.ok w4 =>
                    writeLoop w4 p start iend2.toNat iend2.toNat fuel) =
                    .ok (w', done') := h
                rw [ha] at h
                replace h : (match jp (wa.copyData p done ist.toNat) with
                  | Except.error e => Except.error e
                  | Except.ok w4 =>
                    writeLoop w4 p start iend2.toNat iend2.toNat fuel) =
                    .ok (w', done') := h
                rcases hjpr : jp (wa.copyData p done ist.toNat) with e | w4
                · rw [hjpr] at h
                  exact Except.noConfusion h
                · rw [hjpr] at h
                  obtain ⟨⟨s1, hs1⟩, hwr1⟩ := appendLiteral_b _ _ _ _ _ ha
                  obtain ⟨⟨s3, hs3⟩, hwr3⟩ := hjp _ _ hjpr
                  obtain ⟨⟨s2, hs2⟩, hwr2⟩ := ih _ _ _ _ _ h
                  have hcd : (wa.copyData p done ist.toNat).b = wa.b := rfl
                  have hcw : (wa.copyData p done ist.toNat).written =
                    wa.written := rfl
                  refine ⟨⟨s1 ++ s3 ++ s2, ?_⟩, ?_⟩
                  · rw [hs2, hs3, hcd, hs1]
                    simp [List.append_assoc]
                  · rw [hwr2, hwr3, hcw, hwr1]
            · rw [if_neg hc5] at h
              replace h : (match jp w1 with
                | Except.error e => Except.error e
                | Except.ok w4 =>
                  writeLoop w4 p start iend2.toNat iend2.toNat fuel) =
                  .ok (w', done') := h
              rcases hjpr : jp w1 with e | w4
              · rw [hjpr] at h
                exact Except.noConfusion h
              · rw [hjpr] at h
                obtain ⟨⟨s3, hs3⟩, hwr3⟩ := hjp _ _ hjpr
                obtain ⟨⟨s2, hs2⟩, hwr2⟩ := ih _ _ _ _ _ h
                refine ⟨⟨s3 ++ s2, ?_⟩, ?_⟩
                · rw [hs2, hs3]
                  simp [List.append_assoc]
                · rw [hwr2, hwr3]
    · rw [if_neg hp4] at h
      have h1 := (Except.ok.injEq _ _).mp h
      injection h1 with hw
      rw [← hw]
      exact ⟨⟨[], by simp⟩, rfl⟩

/-- The `startBuf` buffer is the header exactly when nothing was
written, and empty otherwise. -/
theorem startBuf_b (w0 : WState) : (w0.startBuf).b =
    (if w0.written = 0 then WState.appendHeader { w0 with b := [] } [] else []) := by
  rw [WState.startBuf]
  by_cases hz : w0.written = 0
  · rw [if_pos (show ({ w0 with b := [] } : WState).written = 0 from hz),
      if_pos hz]
  · rw [if_neg (show ¬ ({ w0 with b := [] } : WState).written = 0 from hz),
      if_neg hz]

/-- `startBuf` keeps the `written` counter. -/
theorem startBuf_written (w0 : WState) : (w0.startBuf).written = w0.written := by
  rw [WState.startBuf]
  by_cases hz : w0.written = 0
  · rw [if_pos (show ({ w0 with b := [] } : WState).written = 0 from hz)]
  · rw [if_neg (show ¬ ({ w0 with b := [] } : WState).written = 0 from hz)]

/-- Decomposition of one successful producer call `Writer.Write`: the
whole compressed buffer for this call (with the header exactly when
nothing was written yet) is handed to the sink as one payload, whose
response alone decides the error flag, the reset and the returned count. -/
theorem Write_ok_parts (w0 : WState) (p : List Nat)
    (resp : List Nat → Nat × Bool) (fuel : Nat) (w' : WState) (n : Nat)
    (ef : Bool) (payload : List Nat)
    (h : w0.Write p resp fuel = .ok (w', n, ef, payload)) :
    (∃ body, payload = (if w0.written = 0
      then WState.appendHeader { w0 with b := [] } [] else []) ++ body) ∧
    ef = (resp payload).2 ∧
    (∃ wmid : WState, payload = wmid.b ∧ wmid.written = w0.written ∧
      w' = (if (resp payload).2 ∨ (resp payload).1 ≠ payload.length
        then ({ wmid with written := wmid.written + (resp payload).1 }).reset
        else { wmid with written := wmid.written + (resp payload).1 })) ∧
    (ef = true → n = 0) := by
  rw [WState.Write] at h
  obtain ⟨lw, hlw, h⟩ := exbind_ok _ _ _ h
  beta_reduce at h
  obtain ⟨⟨s0, hs0⟩, hwr0⟩ := writeLoop_b _ _ _ _ _ _ _ _ hlw
  lift_lets at h
  extract_lets w1 done1 jp2 at h
  have hjp : ∀ (y : WState × Nat), jp2 y = .ok (w', n, ef, payload) →
      payload = y.1.b ∧ ef = (resp y.1.b).2 ∧
      w' = (if (resp y.1.b).2 ∨ (resp y.1.b).1 ≠ y.1.b.length
        then ({ y.1 with written := y.1.written + (resp y.1.b).1 }).reset
        else { y.1 with written := y.1.written + (resp y.1.b).1 }) ∧
      (ef = true → n = 0) := by
    intro y hj
    unfold_let jp2 at hj
    beta_reduce at hj
    lift_lets at hj
    extract_lets res at hj
    by_cases hb2 : res.2.1 = true
    · rw [if_pos hb2] at hj
      have h4 := (Except.ok.injEq _ _).mp hj
      simp only [Prod.mk.injEq] at h4
      obtain ⟨e1, e2, e3, e4⟩ := h4
      refine ⟨by rw [← e4]; rfl, by rw [← e3]; exact hb2.symm, ?_, fun _ => e2.symm⟩
      rw [← e1]
      rfl
    · rw [if_neg hb2] at hj
      have h4 := (Except.ok.injEq _ _).mp hj
      simp only [Prod.mk.injEq] at h4
      obtain ⟨e1, e2, e3, e4⟩ := h4
      refine ⟨by rw [← e4]; rfl, ?_, ?_, ?_⟩
      · rw [← e3]
        have : res.2.1 = false := by
          cases hrb : res.2.1
          · rfl
          · exact absurd hrb hb2
        exact this.symm
      · rw [← e1]
        rfl
      · intro ht
        exact absurd (e3.trans ht) (by simp)
  by_cases hdl : done1 < p.length
  · rw [if_pos hdl] at h
    obtain ⟨w2, ha, h⟩ := exbind_ok _ _ _ h
    obtain ⟨y, hy, h⟩ := exbind_ok _ _ _ h
    have hyv := (Except.ok.injEq _ _).mp hy
    obtain ⟨hpay, hef, hw', hn⟩ := hjp _ h
    obtain ⟨⟨s1, hs1⟩, hwr1⟩ := appendLiteral_b _ _ _ _ _ ha
    replace hs1 : w2.b = lw.1.b ++ s1 := hs1
    replace hwr1 : w2.written = lw.1.written := hwr1
    have hy1 : w2.copyData p done1 p.length = y.1 := congrArg Prod.fst hyv
    have hyb : y.1.b = (w0.startBuf).b ++ (s0 ++ s1) := by
      rw [← hy1]
      show w2.b = (w0.startBuf).b ++ (s0 ++ s1)
      rw [hs1, hs0]
      simp [List.append_assoc]
    have hyw : y.1.written = w0.written := by
      rw [← hy1]
      show w2.written = w0.written
      rw [hwr1, hwr0, startBuf_written]
    refine ⟨⟨s0 ++ s1, by rw [hpay, hyb, startBuf_b]⟩, ?_,
      ⟨y.1, hpay, hyw, ?_⟩, hn⟩
    · rw [hpay]
      exact hef
    · rw [hpay]
      exact hw'
  · rw [if_neg hdl] at h
    obtain ⟨y, hy, h⟩ := exbind_ok _ _ _ h
    have hyv := (Except.ok.injEq _ _).mp hy
    obtain ⟨hpay, hef, hw', hn⟩ := hjp _ h
    have hy1 : w1 = y.1 := congrArg Prod.fst hyv
    have hyb : y.1.b = (w0.startBuf).b ++ s0 := by
      rw [← hy1]
      exact hs0
    have hyw : y.1.written = w0.written := by
      rw [← hy1]
      rw [show w1.written = lw.1.written from rfl, hwr0, startBuf_written]
    refine ⟨⟨s0, by rw [hpay, hyb, startBuf_b]⟩, ?_, ⟨y.1, hpay, hyw, ?_⟩, hn⟩
    · rw [hpay]
      exact hef
    · rw [hpay]
      exact hw'

/-! ## Claim C2: one sink call per producer call -/

/-- Claim C2: each producer call hands the compressed bytes for `p` to
the underlying sink as a single payload (the header exactly on the first
call): the sink's response to that one payload alone determines the
error flag, and on a successful full write the `written` counter
advances by the whole payload length. -/
theorem c2_single_sink_call (w0 : WState) (p : List Nat)
    (resp : List Nat → Nat × Bool) (fuel : Nat) (w' : WState) (n : Nat)
    (ef : Bool) (payload : List Nat)
    (h : w0.Write p resp fuel = .ok (w', n, ef, payload)) :
    ef = (resp payload).2 ∧
    (∃ body, payload = (if w0.written = 0
      then WState.appendHeader { w0 with b := [] } [] else []) ++ body) ∧
    (ef = false → (resp payload).1 = payload.length →
      w'.written = w0.written + payload.length) := by
  obtain ⟨hbody, hef, ⟨wmid, hpay, hwr, hw'⟩, hn⟩ :=
    Write_ok_parts _ _ _ _ _ _ _ _ h
  refine ⟨hef, hbody, ?_⟩
  intro hef0 hfull
  have hcond : ¬ ((resp payload).2 = true ∨
      (resp payload).1 ≠ payload.length) := by
    rintro (hc | hc)
    · rw [← hef] at hc
      rw [hef0] at hc
      exact Bool.noConfusion hc
    · exact hc hfull
  rw [hw', if_neg hcond]
  show wmid.written + (resp payload).1 = w0.written + payload.length
  rw [hwr, hfull]

/-- Witness for C2 on a fresh 32-byte-window writer compressing
`[1, 2, 3]` through a sink that accepts everything. -/
theorem c2_single_sink_call_witness :
    (({ b := [], written := 0, block := List.replicate 32 0, mask := 31,
        pos := 0, ht := List.replicate 4 0, hsh := 30, ver := 0,
        appendMagic := true } : WState).Write [1, 2, 3]
        (fun b => (b.length, false)) 1 =
      .ok ({ b := [128, 2, 101, 97, 122, 121, 128, 16, 5, 3, 1, 2, 3],
             written := 13, block := [1, 2, 3] ++ List.replicate 29 0,
             mask := 31, pos := 3, ht := List.replicate 4 0, hsh := 30,
             ver := 0, appendMagic := true },
        3, false, [128, 2, 101, 97, 122, 121, 128, 16, 5, 3, 1, 2, 3])) ∧
    ((false : Bool) = false ∧
      (∃ body, [128, 2, 101, 97, 122, 121, 128, 16, 5, 3, 1, 2, 3] =
        [128, 2, 101, 97, 122, 121, 128, 16, 5] ++ body) ∧
      ((false : Bool) = false → (13 : Nat) = 13 → (13 : Nat) = 0 + 13)) :=
  ⟨by decide,
    c2_single_sink_call
      { b := [], written := 0, block := List.replicate 32 0, mask := 31,
        pos := 0, ht := List.replicate 4 0, hsh := 30, ver := 0,
        appendMagic := true } [1, 2, 3] (fun b => (b.length, false)) 1
      { b := [128, 2, 101, 97, 122, 121, 128, 16, 5, 3, 1, 2, 3],
        written := 13, block := [1, 2, 3] ++ List.replicate 29 0, mask := 31,
        pos := 3, ht := List.replicate 4 0, hsh := 30, ver := 0,
        appendMagic := true }
      3 false [128, 2, 101, 97, 122, 121, 128, 16, 5, 3, 1, 2, 3]
      (by decide)⟩

/-! ## Claim C9: sink failure resets the encoder -/

/-- Claim C9: if the sink reports an error or a short write on a
producer call, the encoder afterwards is equivalent to a fresh one
(`pos` and `written` zero, window and hash table all zeros), and the
next producer call emits a full new header before its data. -/
theorem c9_sink_failure_restart (w0 : WState) (p : List Nat)
    (resp : List Nat → Nat × Bool) (fuel : Nat) (w' : WState) (n : Nat)
    (ef : Bool) (payload : List Nat)
    (h : w0.Write p resp fuel = .ok (w', n, ef, payload))
    (hfail : (resp payload).2 = true ∨ (resp payload).1 ≠ payload.length) :
    w'.pos = 0 ∧ w'.written = 0 ∧
    w'.block = List.replicate w'.block.length 0 ∧
    w'.ht = List.replicate w'.ht.length 0 ∧
    (∀ (p2 : List Nat) (resp2 : List Nat → Nat × Bool) (fuel2 : Nat)
      (w2 : WState) (n2 : Nat) (e2 : Bool) (pl2 : List Nat),
      w'.Write p2 resp2 fuel2 = .ok (w2, n2, e2, pl2) →
      ∃ body, pl2 = WState.appendHeader { w' with b := [] } [] ++ body) := by
  obtain ⟨hbody, hef, ⟨wmid, hpay, hwr, hw'⟩, hn⟩ :=
    Write_ok_parts _ _ _ _ _ _ _ _ h
  have hw'r : w' =
      ({ wmid with written := wmid.written + (resp payload).1 }).reset := by
    rw [hw', if_pos hfail]
  have hwz : w'.written = 0 := by
    rw [hw'r]
    rfl
  refine ⟨?_, hwz, ?_, ?_, ?_⟩
  · rw [hw'r]
    rfl
  · rw [hw'r]
    simp [WState.reset]
  · rw [hw'r]
    simp [WState.reset]
  · intro p2 resp2 fuel2 w2 n2 e2 pl2 h2
    obtain ⟨⟨body, hb⟩, -, -, -⟩ := Write_ok_parts _ _ _ _ _ _ _ _ h2
    refine ⟨body, ?_⟩
    rw [hb, if_pos hwz]

/-- Witness for C9: the sink rejects the payload (`(0, true)`), leaving
a fresh writer whose next call is covered by the final conjunct. -/
theorem c9_sink_failure_restart_witness :
    (({ b := [], written := 0, block := List.replicate 32 0, mask := 31,
        pos := 0, ht := List.replicate 4 0, hsh := 30, ver := 0,
        appendMagic := true } : WState).Write [1, 2, 3]
        (fun _ => (0, true)) 1 =
      .ok ({ b := [128, 2, 101, 97, 122, 121, 128, 16, 5, 3, 1, 2, 3],
             written := 0, block := List.replicate 32 0, mask := 31,
             pos := 0, ht := List.replicate 4 0, hsh := 30, ver := 0,
             appendMagic := true },
        0, true, [128, 2, 101, 97, 122, 121, 128, 16, 5, 3, 1, 2, 3])) ∧
    ((0 : Nat) = 0 ∧ (0 : Nat) = 0 ∧
      (List.replicate 32 (0 : Nat) =
        List.replicate (List.replicate 32 (0 : Nat)).length 0) ∧
      (List.replicate 4 (0 : Nat) =
        List.replicate (List.replicate 4 (0 : Nat)).length 0) ∧
      (∀ (p2 : List Nat) (resp2 : List Nat → Nat × Bool) (fuel2 : Nat)
        (w2 : WState) (n2 : Nat) (e2 : Bool) (pl2 : List Nat),
        ({ b := [128, 2, 101, 97, 122, 121, 128, 16, 5, 3, 1, 2, 3],
           written := 0, block := List.replicate 32 0, mask := 31,
           pos := 0, ht := List.replicate 4 0, hsh := 30, ver := 0,
           appendMagic := true } : WState).Write p2 resp2 fuel2 =
          .ok (w2, n2, e2, pl2) →
        ∃ body, pl2 = WState.appendHeader
          { ({ b := [128, 2, 101, 97, 122, 121, 128, 16, 5, 3, 1, 2, 3],
               written := 0, block := List.replicate 32 0, mask := 31,
               pos := 0, ht := List.replicate 4 0, hsh := 30, ver := 0,
               appendMagic := true } : WState) with b := [] } [] ++ body)) :=
  ⟨by decide,
    c9_sink_failure_restart
      { b := [], written := 0, block := List.replicate 32 0, mask := 31,
        pos := 0, ht := List.replicate 4 0, hsh := 30, ver := 0,
        appendMagic := true } [1, 2, 3] (fun _ => (0, true)) 1
      { b := [128, 2, 101, 97, 122, 121, 128, 16, 5, 3, 1, 2, 3],
        written := 0, block := List.replicate 32 0, mask := 31, pos := 0,
        ht := List.replicate 4 0, hsh := 30, ver := 0, appendMagic := true }
      0 true [128, 2, 101, 97, 122, 121, 128, 16, 5, 3, 1, 2, 3]
      (by decide) (Or.inl (by decide))⟩

/-! ## Claim C4: the stream header -/

/-- Claim C4 counterexample: the first producer call of a fresh
`NewWriter` emits the 9-byte header `magic ++ MetaReset` with no
`MetaVer` element (this tree has `Version = 0`, and `appendHeader` emits
`MetaVer` only when `Ver != 0`), so the payload does not begin with the
spec's magic-MetaVer-MetaReset header for any version byte. -/
theorem c4_header_counterexample :
    ((((NewWriter 32 4).getD {}).Write [] (fun b => (b.length, false)) 1).map
        (fun r => r.2.2.2) =
      .ok [128, 2, 101, 97, 122, 121, 128, 16, 5]) ∧
    (∀ v, ¬ ∃ rest, ([128, 2, 101, 97, 122, 121, 128, 16, 5] : List Nat) =
      specHeaderC4 v 5 ++ rest) := by
  refine ⟨by decide, ?_⟩
  intro v hex
  obtain ⟨rest, hr⟩ := hex
  have hlen := congrArg List.length hr
  simp [specHeaderC4] at hlen

/-- Claim C4, amended: the first producer call of a writer built by
`NewWriter` emits the optional magic bytes followed directly by the
`MetaReset` element carrying log2 of the window size; no `MetaVer`
element appears, because `appendHeader` emits it only when `Ver != 0`
and `NewWriter` sets `Ver = Version = 0` in this tree. -/
theorem c4_first_header (bs hs : Nat) (w0 : WState)
    (hnw : NewWriter bs hs = some w0) (p : List Nat)
    (resp : List Nat → Nat × Bool) (fuel : Nat) (w' : WState) (n : Nat)
    (ef : Bool) (payload : List Nat)
    (h : w0.Write p resp fuel = .ok (w', n, ef, payload)) :
    ∃ body, payload = [MetaTagByte, MetaMagic ||| 2, 101, 97, 122, 121,
      MetaTagByte, MetaReset ||| 0, trailZeros bs] ++ body := by
  rw [NewWriter] at hnw
  split_ifs at hnw
  have hw0 : w0 = { b := [], written := 0, block := List.replicate bs 0,
                    mask := bs - 1, pos := 0, ht := List.replicate hs 0,
                    hsh := 32 - bitsLen (hs - 1), ver := Version,
                    appendMagic := true } :=
    ((Option.some.injEq _ _).mp hnw).symm
  obtain ⟨⟨body, hb⟩, -, -, -⟩ := Write_ok_parts _ _ _ _ _ _ _ _ h
  refine ⟨body, ?_⟩
  rw [hb, if_pos (show w0.written = 0 from by rw [hw0])]
  have hhdr : WState.appendHeader { w0 with b := [] } [] =
      [MetaTagByte, MetaMagic ||| 2, 101, 97, 122, 121,
       MetaTagByte, MetaReset ||| 0, trailZeros bs] := by
    rw [hw0]
    simp [WState.appendHeader, appendMagicBytes, appendResetBytes,
      show Version = 0 from rfl]
  rw [hhdr]

/-- Witness for C4 at `NewWriter 32 4`, first call on empty input. -/
theorem c4_first_header_witness :
    (NewWriter 32 4 = some { b := [], written := 0,
                             block := List.replicate 32 0, mask := 31,
                             pos := 0, ht := List.replicate 4 0, hsh := 30,
                             ver := 0, appendMagic := true }) ∧
    (({ b := [], written := 0, block := List.replicate 32 0, mask := 31,
        pos := 0, ht := List.replicate 4 0, hsh := 30, ver := 0,
        appendMagic := true } : WState).Write []
        (fun b => (b.length, false)) 1 =
      .ok ({ b := [128, 2, 101, 97, 122, 121, 128, 16, 5], written := 9,
             block := List.replicate 32 0, mask := 31, pos := 0,
             ht := List.replicate 4 0, hsh := 30, ver := 0,
             appendMagic := true },
        0, false, [128, 2, 101, 97, 122, 121, 128, 16, 5])) ∧
    (∃ body, ([128, 2, 101, 97, 122, 121, 128, 16, 5] : List Nat) =
      [128, 2, 101, 97, 122, 121, 128, 16, 5] ++ body) :=
  ⟨by
    have hbl : bitsLen (4 - 1) = 2 := by norm_num [bitsLen, Nat.log2]
    rw [NewWriter, if_neg (by decide), if_neg (by decide), hbl]
    rfl,
   by decide,
    c4_first_header 32 4
      { b := [], written := 0, block := List.replicate 32 0, mask := 31,
        pos := 0, ht := List.replicate 4 0, hsh := 30, ver := 0,
        appendMagic := true }
      (by
        have hbl : bitsLen (4 - 1) = 2 := by norm_num [bitsLen, Nat.log2]
        rw [NewWriter, if_neg (by decide), if_neg (by decide), hbl]
        rfl)
      [] (fun b => (b.length, false)) 1
      { b := [128, 2, 101, 97, 122, 121, 128, 16, 5], written := 9,
        block := List.replicate 32 0, mask := 31, pos := 0,
        ht := List.replicate 4 0, hsh := 30, ver := 0, appendMagic := true }
      0 false [128, 2, 101, 97, 122, 121, 128, 16, 5] (by decide)⟩

/-! ## Claim C5: the minimum copy-chunk gate -/

/-- Claim C5 counterexample: the code's minimum chunk is the constant
`minCopyChunk = 6` for every format version, not the version-dependent
value the spec claims (`4` in version 0).  This tree has `Version = 0`,
and a 5-byte run-length match — long enough for the spec's version-0
minimum of 4 — is skipped by `writeRunlen` (the cursor advances by one
and no `Copy` is emitted). -/
theorem c5_min_chunk_counterexample :
    minCopyChunk ≠ specMinCopy Version ∧ specMinCopy Version ≤ 5 ∧
    ({} : WState).writeRunlen [2, 3, 4, 5, 6, 2, 3, 4, 5, 6] 0 0 5 =
      .ok ({}, 0, 6) := by
  decide

/-! ## Element-sequence lemmas for the never-short-copy guarantee (C5) -/

/-- `EmitOk` is closed under concatenation. -/
theorem emitOk_append (s1 s2 : List Nat) (h1 : EmitOk s1) (h2 : EmitOk s2) :
    EmitOk (s1 ++ s2) := by
  induction h1 with
  | nil => simpa using h2
  | lit l tb data rest ht hd hr ih =>
    have := EmitOk.lit l tb data (rest ++ s2) ht hd ih
    simpa [List.append_assoc] using this
  | copy l off tb ob rest ht ho hmin hr ih =>
    have := EmitOk.copy l off tb ob (rest ++ s2) ht ho hmin ih
    simpa [List.append_assoc] using this

/-- `Encoder.Tag` appends the same suffix whatever the buffer: the
suffix is what it produces on the empty buffer. -/
theorem eTag_split (b : List Nat) (t l : Nat) (b' : List Nat)
    (h : eTag b t l = .ok b') : ∃ s, b' = b ++ s ∧ eTag [] t l = .ok s := by
  simp only [eTag] at h ⊢
  split_ifs at h with h1 h2 h3 h4
  · exact ⟨_, ((Except.ok.injEq _ _).mp h).symm, by rw [if_pos h1]; simp⟩
  · exact ⟨_, ((Except.ok.injEq _ _).mp h).symm,
      by rw [if_neg h1, if_pos h2]; simp⟩
  · exact ⟨_, ((Except.ok.injEq _ _).mp h).symm,
      by rw [if_neg h1, if_neg h2, if_pos h3]; simp⟩
  · exact ⟨_, ((Except.ok.injEq _ _).mp h).symm,
      by rw [if_neg h1, if_neg h2, if_neg h3, if_pos h4]; simp⟩

/-- `Encoder.Offset` appends the same suffix whatever the buffer: the
suffix is what it produces on the empty buffer. -/
theorem eOffset_split (b : List Nat) (off0 : Int) (l : Nat) (b' : List Nat)
    (h : eOffset b off0 l = .ok b') :
    ∃ s, b' = b ++ s ∧ eOffset [] off0 l = .ok s := by
  simp only [eOffset] at h ⊢
  split_ifs at h with h0 h1 h2 h3 h4 h5 h6 h7 h8
  · exact ⟨_, ((Except.ok.injEq _ _).mp h).symm,
      by rw [if_pos h0, if_pos h0, if_pos h1]; rfl⟩
  · exact ⟨_, ((Except.ok.injEq _ _).mp h).symm,
      by rw [if_pos h0, if_pos h0, if_neg h1, if_pos h2]; rfl⟩
  · exact ⟨_, ((Except.ok.injEq _ _).mp h).symm,
      by rw [if_pos h0, if_pos h0, if_neg h1, if_neg h2, if_pos h3]; rfl⟩
  · exact ⟨_, ((Except.ok.injEq _ _).mp h).symm,
      by rw [if_pos h0, if_pos h0, if_neg h1, if_neg h2, if_neg h3, if_pos h4]; rfl⟩
  · exact ⟨_, by rw [← ((Except.ok.injEq _ _).mp h), List.append_assoc],
      by rw [if_neg h0, if_neg h0, if_pos h5]; rfl⟩
  · exact ⟨_, by rw [← ((Except.ok.injEq _ _).mp h), List.append_assoc],
      by rw [if_neg h0, if_neg h0, if_neg h5, if_pos h6]; rfl⟩
  · exact ⟨_, by rw [← ((Except.ok.injEq _ _).mp h), List.append_assoc],
      by rw [if_neg h0, if_neg h0, if_neg h5, if_neg h6, if_pos h7]; rfl⟩
  · exact ⟨_, by rw [← ((Except.ok.injEq _ _).mp h), List.append_assoc],
      by rw [if_neg h0, if_neg h0, if_neg h5, if_neg h6, if_neg h7, if_pos h8]; rfl⟩

/-- `Encoder.Offset` for the zero-run element: offset `0` with a
positive length stores the `OffLong` flag and the byte `0`. -/
theorem eOffset_zero_long (l : Nat) (hl : 1 ≤ l) :
    eOffset [] 0 l = .ok [OffLong, 0] := by
  simp only [eOffset]
  rw [if_neg (show ¬ (0 : Int) ≥ (l : Int) by exact_mod_cast by omega),
    if_neg (show ¬ (0 : Int) ≥ (l : Int) by exact_mod_cast by omega),
    if_pos (show (0 : Int) < (Off1 : Int) by decide)]
  rfl

/-- Taking `en - st` bytes after dropping `st` yields exactly that many
when `en` is within the buffer. -/
theorem take_drop_len (d : List Nat) (st en : Nat) (hen : en ≤ d.length) :
    ((d.drop st).take (en - st)).length = en - st := by
  simp only [List.length_take, List.length_drop]
  omega

/-- `Writer.appendLiteral` appends exactly one well-formed `Literal`
element when the end index is within the input. -/
theorem appendLiteral_emit (w : WState) (d : List Nat) (st en : Nat)
    (w' : WState) (hen : en ≤ d.length)
    (h : w.appendLiteral d st en = .ok w') :
    ∃ s, w'.b = w.b ++ s ∧ EmitOk s := by
  rw [WState.appendLiteral] at h
  rcases he : eTag w.b LiteralTag (en - st) with e | b2
  · rw [he] at h
    exact Except.noConfusion h
  · rw [he] at h
    obtain ⟨s, hs, hnil⟩ := eTag_split _ _ _ _ he
    have hw : w' = { w with b := b2 ++ (d.drop st).take (en - st) } :=
      ((Except.ok.injEq _ _).mp h).symm
    refine ⟨s ++ (d.drop st).take (en - st), ?_, ?_⟩
    · rw [hw]
      show b2 ++ _ = _
      rw [hs]
      simp [List.append_assoc]
    · have := EmitOk.lit (en - st) s ((d.drop st).take (en - st)) [] hnil
        (take_drop_len d st en hen) EmitOk.nil
      simpa using this

/-- `Writer.appendCopy` appends exactly one well-formed `Copy` element,
at least `minCopyChunk` long when hypothesised so. -/
theorem appendCopy_emit (w : WState) (st en : Int) (w' : WState)
    (hmin : minCopyChunk ≤ (en - st).toNat)
    (h : w.appendCopy st en = .ok w') :
    ∃ s, w'.b = w.b ++ s ∧ EmitOk s := by
  rw [WState.appendCopy] at h
  obtain ⟨b2, he, h⟩ := exbind_ok _ _ _ h
  obtain ⟨b3, ho, h⟩ := exbind_ok _ _ _ h
  obtain ⟨s1, hs1, hn1⟩ := eTag_split _ _ _ _ he
  obtain ⟨s2, hs2, hn2⟩ := eOffset_split _ _ _ _ ho
  replace hs2 : b3 = b2 ++ s2 := hs2
  have hw : { w with b := b3 } = w' := (Except.ok.injEq _ _).mp h
  refine ⟨s1 ++ s2, ?_, ?_⟩
  · rw [← hw]
    show b3 = w.b ++ (s1 ++ s2)
    rw [hs2, hs1, List.append_assoc]
  · have := EmitOk.copy (en - st).toNat ((w.pos : Int) - st) s1 s2 [] hn1 hn2
      hmin EmitOk.nil
    simpa using this

/-- The eight-byte zero scan never leaves the buffer. -/
theorem zeroScan8F_le (p : List Nat) : ∀ (fuel i : Nat), i ≤ p.length →
    zeroScan8F p fuel i ≤ p.length := by
  intro fuel
  induction fuel with
  | zero => intro i h; exact h
  | succ fuel ih =>
    intro i h
    simp only [zeroScan8F]
    split
    · next hc => exact ih _ (by omega)
    · exact h

/-- The byte-wise zero scan never leaves the buffer. -/
theorem zeroScan1F_le (p : List Nat) : ∀ (fuel i : Nat), i ≤ p.length →
    zeroScan1F p fuel i ≤ p.length := by
  intro fuel
  induction fuel with
  | zero => intro i h; exact h
  | succ fuel ih =>
    intro i h
    simp only [zeroScan1F]
    split
    · next hc => exact ih _ (by omega)
    · exact h

/-- The backward zero scan never moves forward. -/
theorem zeroScanBackF_le (p : List Nat) (done : Nat) : ∀ (fuel i : Nat),
    zeroScanBackF p done fuel i ≤ i := by
  intro fuel
  induction fuel with
  | zero => intro i; exact Nat.le_refl i
  | succ fuel ih =>
    intro i
    simp only [zeroScanBackF]
    split
    · exact le_trans (ih (i - 1)) (by omega)
    · exact Nat.le_refl i

/-- The forward run scan never leaves the buffer. -/
theorem runFwdF_le (p : List Nat) (st i : Nat) : ∀ (fuel jf : Nat),
    i + jf ≤ p.length → i + runFwdF p st i fuel jf ≤ p.length := by
  intro fuel
  induction fuel with
  | zero => intro jf h; exact h
  | succ fuel ih =>
    intro jf h
    simp only [runFwdF]
    split
    · next hc => exact ih _ (by omega)
    · exact h

/-- The backward run scan never moves forward. -/
theorem runBackF_le (p : List Nat) (done st i : Nat) : ∀ (fuel : Nat)
    (jb : Int), runBackF p done st i fuel jb ≤ jb := by
  intro fuel
  induction fuel with
  | zero => intro jb; exact le_refl jb
  | succ fuel ih =>
    intro jb
    simp only [runBackF]
    split
    · exact le_trans (ih (jb - 1)) (by omega)
    · exact le_refl jb

/-- Where the backward run scan stops: either it never moved, or the
step into its result was taken under the loop conditions. -/
theorem runBackF_stop (p : List Nat) (done st i : Nat) : ∀ (fuel : Nat)
    (jb : Int), runBackF p done st i fuel jb = jb ∨
      ((st : Int) + (runBackF p done st i fuel jb + 1) ≥ 0 ∧
        (done : Int) ≤ (i : Int) + (runBackF p done st i fuel jb + 1)) := by
  intro fuel
  induction fuel with
  | zero => intro jb; exact Or.inl rfl
  | succ fuel ih =>
    intro jb
    simp only [runBackF]
    split
    · next hc =>
      rcases ih (jb - 1) with he | hcond
      · rw [he]
        exact Or.inr ⟨by omega, by omega⟩
      · exact Or.inr hcond
    · exact Or.inl rfl

/-- Backward match extension never moves the input cursor forward. -/
theorem extendBackF_le (p block : List Nat) (mask done : Nat) :
    ∀ (fuel : Nat) (ist st : Int),
      (extendBackF p block mask done fuel ist st).1 ≤ ist := by
  intro fuel
  induction fuel with
  | zero => intro ist st; exact le_refl ist
  | succ fuel ih =>
    intro ist st
    simp only [extendBackF]
    split
    · exact le_trans (ih (ist - 1) (st - 1)) (by omega)
    · exact le_refl ist

/-- Eight-at-a-time forward extension never leaves the buffer. -/
theorem extendFwd8F_le (p block : List Nat) (mask : Nat) :
    ∀ (fuel iend endp : Nat), iend ≤ p.length →
      (extendFwd8F p block mask fuel iend endp).1 ≤ p.length := by
  intro fuel
  induction fuel with
  | zero => intro iend endp h; exact h
  | succ fuel ih =>
    intro iend endp h
    simp only [extendFwd8F]
    split
    · next hc => exact ih _ _ (by omega)
    · exact h

/-- Byte-wise forward extension never leaves the buffer. -/
theorem extendFwd1F_le (p block : List Nat) (mask : Nat) :
    ∀ (fuel iend endp : Nat), iend ≤ p.length →
      (extendFwd1F p block mask fuel iend endp).1 ≤ p.length := by
  intro fuel
  induction fuel with
  | zero => intro iend endp h; exact h
  | succ fuel ih =>
    intro iend endp h
    simp only [extendFwd1F]
    split
    · next hc => exact ih _ _ (by omega)
    · exact h

/-- `Writer.writeZeros` appends only well-formed elements, every `Copy`
at least `minCopyChunk` long. -/
theorem writeZeros_emit (w : WState) (p : List Nat) (done i0 : Nat)
    (w' : WState) (d' i' : Nat) (hi0 : i0 ≤ p.length)
    (h : w.writeZeros p done i0 = .ok (w', d', i')) :
    ∃ s, w'.b = w.b ++ s ∧ EmitOk s := by
  rw [WState.writeZeros] at h
  by_cases hc : zeroScan1 p (zeroScan8 p i0) - zeroScanBack p done i0 <
    minCopyChunk
  · rw [if_pos hc] at h
    have h1 := (Except.ok.injEq _ _).mp h
    injection h1 with hw hrest
    rw [← hw]
    exact ⟨[], by simp, EmitOk.nil⟩
  · rw [if_neg hc] at h
    obtain ⟨w1, hw1, h⟩ := exbind_ok _ _ _ h
    have hil : zeroScanBack p done i0 ≤ p.length :=
      le_trans (zeroScanBackF_le p done _ i0) hi0
    have hext1 : ∃ s, w1.b = w.b ++ s ∧ EmitOk s := by
      by_cases hd : done ≠ zeroScanBack p done i0
      · rw [if_pos hd] at hw1
        obtain ⟨w2, ha, hw1⟩ := exbind_ok _ _ _ hw1
        obtain ⟨s, hs, hok⟩ := appendLiteral_emit _ _ _ _ _ hil ha
        have h2 : w2.copyData p done (zeroScanBack p done i0) = w1 :=
          (Except.ok.injEq _ _).mp hw1
        exact ⟨s, by rw [← h2]; exact hs, hok⟩
      · rw [if_neg hd] at hw1
        have h2 := (Except.ok.injEq _ _).mp hw1
        exact ⟨[], by rw [← h2]; simp, EmitOk.nil⟩
    obtain ⟨b2, he, h⟩ := exbind_ok _ _ _ h
    obtain ⟨s2, hs2, hn2⟩ := eTag_split _ _ _ _ he
    replace hs2 : b2 = w1.b ++ s2 := hs2
    obtain ⟨s1, hs1, hok1⟩ := hext1
    have h1 := (Except.ok.injEq _ _).mp h
    injection h1 with hw hrest
    have h6 : minCopyChunk = 6 := rfl
    have hmin : minCopyChunk ≤
        zeroScan1 p (zeroScan8 p i0) - zeroScanBack p done i0 := by omega
    have hcopy : EmitOk (s2 ++ [OffLong, 0]) := by
      have := EmitOk.copy
        (zeroScan1 p (zeroScan8 p i0) - zeroScanBack p done i0) 0 s2
        [OffLong, 0] [] hn2 (eOffset_zero_long _ (by omega)) hmin EmitOk.nil
      simpa using this
    refine ⟨s1 ++ (s2 ++ [OffLong, 0]), ?_, emitOk_append _ _ hok1 hcopy⟩
    rw [← hw]
    show b2 ++ [OffLong, 0] = w.b ++ (s1 ++ (s2 ++ [OffLong, 0]))
    rw [hs2, hs1]
    simp [List.append_assoc]

/-- `Writer.writeRunlen` appends only well-formed elements, every `Copy`
at least `minCopyChunk` long. -/
theorem writeRunlen_emit (w : WState) (p : List Nat) (done st i : Nat)
    (w' : WState) (d' i' : Nat) (hdst : done ≤ st) (hsti : st ≤ i)
    (hip : i ≤ p.length) (h : w.writeRunlen p done st i = .ok (w', d', i')) :
    ∃ s, w'.b = w.b ++ s ∧ EmitOk s := by
  rw [WState.writeRunlen] at h
  by_cases hz : st + 8 < p.length ∧ read8LE p st = 0
  · rw [if_pos hz] at h
    exact writeZeros_emit _ _ _ _ _ _ _ (le_trans hsti hip) h
  · rw [if_neg hz] at h
    by_cases hskip : (runFwd p st i 0 : Int) - (runBack p done st i (-1) + 1) <
        (minCopyChunk : Int)
    · rw [if_pos hskip] at h
      have h1 := (Except.ok.injEq _ _).mp h
      injection h1 with hw hrest
      rw [← hw]
      exact ⟨[], by simp, EmitOk.nil⟩
    · rw [if_neg hskip] at h
      by_cases hcut : i - st ≥ w.block.length - 8
      · rw [if_pos hcut] at h
        obtain ⟨w2, ha, h⟩ := exbind_ok _ _ _ h
        have hen : done + (i - st) ≤ p.length := by omega
        obtain ⟨s, hs, hok⟩ := appendLiteral_emit _ _ _ _ _ hen ha
        have h1 := (Except.ok.injEq _ _).mp h
        injection h1 with hw hrest
        exact ⟨s, by rw [← hw]; exact hs, hok⟩
      · rw [if_neg hcut] at h
        obtain ⟨w2, ha, h⟩ := exbind_ok _ _ _ h
        have hjble : runBack p done st i (-1) ≤ -1 :=
          runBackF_le p done st i _ (-1)
        have hen : ((i : Int) + (runBack p done st i (-1) + 1)).toNat ≤
            p.length := by omega
        obtain ⟨s1, hs1, hok1⟩ := appendLiteral_emit _ _ _ _ _ hen ha
        obtain ⟨b2, he, h⟩ := exbind_ok _ _ _ h
        obtain ⟨s2, hs2, hn2⟩ := eTag_split _ _ _ _ he
        replace hs2 : b2 = w2.b ++ s2 := hs2
        obtain ⟨b3, ho, h⟩ := exbind_ok _ _ _ h
        obtain ⟨s3, hs3, hn3⟩ := eOffset_split _ _ _ _ ho
        have h1 := (Except.ok.injEq _ _).mp h
        injection h1 with hw hrest
        have hstop : runBack p done st i (-1) = -1 ∨
            ((st : Int) + (runBack p done st i (-1) + 1) ≥ 0 ∧
              (done : Int) ≤ (i : Int) + (runBack p done st i (-1) + 1)) :=
          runBackF_stop p done st i _ (-1)
        have h6 : (minCopyChunk : Int) = 6 := rfl
        have h6n : minCopyChunk = 6 := rfl
        rw [h6] at hskip
        have hmin : minCopyChunk ≤ i + runFwd p st i 0 -
            ((i : Int) + (runBack p done st i (-1) + 1)).toNat := by
          rw [h6n]
          omega
        have hcopy : EmitOk (s2 ++ s3) := by
          have := EmitOk.copy
            (i + runFwd p st i 0 -
              ((i : Int) + (runBack p done st i (-1) + 1)).toNat)
            ((i : Int) - (st : Int)) s2 s3 [] hn2 hn3 hmin EmitOk.nil
          simpa using this
        refine ⟨s1 ++ (s2 ++ s3), ?_, emitOk_append _ _ hok1 hcopy⟩
        rw [← hw]
        show b3 = w.b ++ (s1 ++ (s2 ++ s3))
        rw [hs3, hs2, hs1]
        simp [List.append_assoc]

/-- The scan loop appends only well-formed elements, every `Copy` at
least `minCopyChunk` long. -/
theorem writeLoop_emit (p : List Nat) (start : Nat) : ∀ (fuel : Nat)
    (w : WState) (done i : Nat) (w' : WState) (done' : Nat),
    writeLoop w p start done i fuel = .ok (w', done') →
    ∃ s, w'.b = w.b ++ s ∧ EmitOk s := by
  intro fuel
  induction fuel with
  | zero =>
    intro w done i w' done' h
    exact Except.noConfusion h
  | succ fuel ih =>
    intro w done i w' done' h
    rw [writeLoop] at h
    lift_lets at h
    extract_lets hh posH w1 off eb ist st1 e8 e1 iend0 end0 blit bend d1
      iend1 end1 d2 iend2 end2 jp at h
    by_cases hp4 : i + 4 ≤ p.length
    · rw [if_pos hp4] at h
      by_cases hc2 : -off > (w1.block.length : Int)
      · rw [if_pos hc2] at h
        exact ih w1 _ _ _ _ h
      · rw [if_neg hc2] at h
        by_cases hc3 : 0 ≤ off ∧ (i : Int) > (done : Int) + off
        · rw [if_pos hc3] at h
          obtain ⟨hc3a, hc3b⟩ := hc3
          rcases hrl : w1.writeRunlen p done (done + off.toNat) i with e |
            ⟨w2, done2, i2⟩
          · rw [hrl] at h
            exact Except.noConfusion h
          · rw [hrl] at h
            obtain ⟨s1, hs1, hok1⟩ := writeRunlen_emit _ _ _ _ _ _ _ _
              (Nat.le_add_right _ _) (by omega) (by omega) hrl
            obtain ⟨s2, hs2, hok2⟩ := ih _ _ _ _ _ h
            refine ⟨s1 ++ s2, ?_, emitOk_append _ _ hok1 hok2⟩
            rw [hs2, hs1]
            simp [List.append_assoc]
        · rw [if_neg hc3] at h
          by_cases hc4 : end2 - st1 < (minCopyChunk : Int)
          · rw [if_pos hc4] at h
            exact ih w1 _ _ _ _ h
          · rw [if_neg hc4] at h
            have h6 : (minCopyChunk : Int) = 6 := rfl
            have h6n : minCopyChunk = 6 := rfl
            have hjp : ∀ (wa wb : WState), jp wa = .ok wb →
                ∃ s, wb.b = wa.b ++ s ∧ EmitOk s := by
              intro wa wb hj
              unfold_let jp at hj
              beta_reduce at hj
              by_cases hov : (wa.pos : Int) - st1 > (wa.block.length : Int)
              · rw [if_pos hov] at hj
                exact Except.noConfusion hj
              · rw [if_neg hov] at hj
                obtain ⟨w3, hc, hj⟩ := exbind_ok _ _ _ hj
                obtain ⟨s3, hs3, hok3⟩ := appendCopy_emit _ _ _ _
                  (by rw [h6] at hc4; rw [h6n]; omega) hc
                have h4 := (Except.ok.injEq _ _).mp hj
                have hb : wb.b = w3.b := by
                  rw [← h4]
                  split
                  · rfl
                  · rfl
                exact ⟨s3, by rw [hb]; exact hs3, hok3⟩
            by_cases hc5 : (done : Int) < ist
            · rw [if_pos hc5] at h
              rcases ha : w1.appendLiteral p done ist.toNat with e | wa
              · replace h : (match (w1.appendLiteral p done ist.toNat >>=
                    fun w2 => pure (w2.copyData p done ist.toNat) >>=
                    fun y => jp y : Except WErr WState) with
                  | Except.error e => Except.error e
                  | Except.ok w4 =>
                    writeLoop w4 p start iend2.toNat iend2.toNat fuel) =
                    .ok (w', done') := h
                rw [ha] at h
                exact Except.noConfusion h
              · replace h : (match (w1.appendLiteral p done ist.toNat >>=
                    fun w2 => pure (w2.copyData p done ist.toNat) >>=
                    fun y => jp y : Except WErr WState) with
                  | Except.error e => Except.error e
                  | Except.ok w4 =>
                    writeLoop w4 p start iend2.toNat iend2.toNat fuel) =
                    .ok (w', done') := h
                rw [ha] at h
                replace h : (match jp (wa.copyData p done ist.toNat) with
                  | Except.error e => Except.error e
                  | Except.ok w4 =>
                    writeLoop w4 p start iend2.toNat iend2.toNat fuel) =
                    .ok (w', done') := h
                rcases hjpr : jp (wa.copyData p done ist.toNat) with e | w4
                · rw [hjpr] at h
                  exact Except.noConfusion h
                · rw [hjpr] at h
                  have heb : eb.1 ≤ (i : Int) - 1 :=
                    extendBackF_le p w1.block w1.mask done _ _ _
                  have hen : ist.toNat ≤ p.length := by
                    have hist : ist = eb.1 + 1 := rfl
                    omega
                  obtain ⟨s1, hs1, hok1⟩ := appendLiteral_emit _ _ _ _ _
                    hen ha
                  obtain ⟨s3, hs3, hok3⟩ := hjp _ _ hjpr
                  obtain ⟨s2, hs2, hok2⟩ := ih _ _ _ _ _ h
                  have hcd : (wa.copyData p done ist.toNat).b = wa.b := rfl
                  refine ⟨s1 ++ s3 ++ s2, ?_,
                    emitOk_append _ _ (emitOk_append _ _ hok1 hok3) hok2⟩
                  rw [hs2, hs3, hcd, hs1]
                  simp [List.append_assoc]
            · rw [if_neg hc5] at h
              replace h : (match jp w1 with
                | Except.error e => Except.error e
                | Except.ok w4 =>
                  writeLoop w4 p start iend2.toNat iend2.toNat fuel) =
                  .ok (w', done') := h
              rcases hjpr : jp w1 with e | w4
              · rw [hjpr] at h
                exact Except.noConfusion h
              · rw [hjpr] at h
                obtain ⟨s3, hs3, hok3⟩ := hjp _ _ hjpr
                obtain ⟨s2, hs2, hok2⟩ := ih _ _ _ _ _ h
                refine ⟨s3 ++ s2, ?_, emitOk_append _ _ hok3 hok2⟩
                rw [hs2, hs3]
                simp [List.append_assoc]
    · rw [if_neg hp4] at h
      have h1 := (Except.ok.injEq _ _).mp h
      injection h1 with hw
      rw [← hw]
      exact ⟨[], by simp, EmitOk.nil⟩

/-- One producer call appends only well-formed elements after the
header: the sink payload is the `startBuf` header followed by a sequence
of `Literal` and `Copy` elements, every `Copy` at least `minCopyChunk`
long. -/
theorem Write_emit (w0 : WState) (p : List Nat) (resp : List Nat → Nat × Bool)
    (fuel : Nat) (w' : WState) (n : Nat) (ef : Bool) (payload : List Nat)
    (h : w0.Write p resp fuel = .ok (w', n, ef, payload)) :
    ∃ s, payload = (w0.startBuf).b ++ s ∧ EmitOk s := by
  rw [WState.Write] at h
  obtain ⟨lw, hlw, h⟩ := exbind_ok _ _ _ h
  beta_reduce at h
  obtain ⟨s0, hs0, hok0⟩ := writeLoop_emit _ _ _ _ _ _ _ _ hlw
  lift_lets at h
  extract_lets w1 done1 jp2 at h
  have hjp : ∀ (y : WState × Nat), jp2 y = .ok (w', n, ef, payload) →
      payload = y.1.b := by
    intro y hj
    unfold_let jp2 at hj
    beta_reduce at hj
    lift_lets at hj
    extract_lets res at hj
    by_cases hb2 : res.2.1 = true
    · rw [if_pos hb2] at hj
      have h4 := (Except.ok.injEq _ _).mp hj
      simp only [Prod.mk.injEq] at h4
      obtain ⟨e1, e2, e3, e4⟩ := h4
      rw [← e4]
      rfl
    · rw [if_neg hb2] at hj
      have h4 := (Except.ok.injEq _ _).mp hj
      simp only [Prod.mk.injEq] at h4
      obtain ⟨e1, e2, e3, e4⟩ := h4
      rw [← e4]
      rfl
  by_cases hdl : done1 < p.length
  · rw [if_pos hdl] at h
    obtain ⟨w2, ha, h⟩ := exbind_ok _ _ _ h
    obtain ⟨y, hy, h⟩ := exbind_ok _ _ _ h
    have hyv := (Except.ok.injEq _ _).mp hy
    have hpay := hjp _ h
    obtain ⟨s1, hs1, hok1⟩ := appendLiteral_emit _ _ _ _ _
      (le_refl p.length) ha
    replace hs1 : w2.b = lw.1.b ++ s1 := hs1
    have hy1 : w2.copyData p done1 p.length = y.1 := congrArg Prod.fst hyv
    refine ⟨s0 ++ s1, ?_, emitOk_append _ _ hok0 hok1⟩
    rw [hpay, ← hy1]
    show w2.b = (w0.startBuf).b ++ (s0 ++ s1)
    rw [hs1, hs0]
    simp [List.append_assoc]
  · rw [if_neg hdl] at h
    obtain ⟨y, hy, h⟩ := exbind_ok _ _ _ h
    have hyv := (Except.ok.injEq _ _).mp hy
    have hpay := hjp _ h
    have hy1 : w1 = y.1 := congrArg Prod.fst hyv
    refine ⟨s0, ?_, hok0⟩
    rw [hpay, ← hy1]
    exact hs0

/-- Claim C5, amended: the minimum copy chunk is the constant
`minCopyChunk = 6` for every format version.  (1) A run-length candidate
whose retracted length `jf - jb` is below it is skipped by `writeRunlen`
with the cursor advancing by one; (2) the `Writer.Write` scan-loop
acceptance gate likewise skips any extended-and-retracted match with
`end - st` below it, advancing the cursor by one; (3) consequently the
scan loop and (4) a whole producer call append to the output only a
sequence of `Literal` and `Copy` elements in which every `Copy` is at
least `minCopyChunk` long. -/
theorem c5_min_copy_enforced :
    (∀ (w : WState) (p : List Nat) (done st i : Nat),
      ¬ (st + 8 < p.length ∧ read8LE p st = 0) →
      (runFwd p st i 0 : Int) - (runBack p done st i (-1) + 1) <
        (minCopyChunk : Int) →
      w.writeRunlen p done st i = .ok (w, done, i + 1)) ∧
    (∀ (w : WState) (p : List Nat) (start done i fuel : Nat),
      i + 4 ≤ p.length →
      let posH := w.ht.getD (w.hash p i) 0
      let w1 : WState := { w with
        ht := w.ht.set (w.hash p i) ((start + i) % 0x100000000) }
      let off : Int := (posH : Int) - (w1.pos : Int)
      let eb := extendBack p w1.block w1.mask done ((i : Int) - 1)
        ((posH : Int) - 1)
      let st : Int := eb.2 + 1
      let e8 := extendFwd8 p w1.block w1.mask i posH
      let e1 := extendFwd1 p w1.block w1.mask e8.1 e8.2
      let blit : Int := (w1.pos : Int) - (w1.block.length : Int)
      let d1 : Int := blit + ((e1.1 : Int) - (done : Int)) - st
      let end1 : Int := if d1 > 0 then (e1.2 : Int) - d1 else (e1.2 : Int)
      let d2 : Int := end1 - (w1.block.length : Int) - blit
      let end2 : Int := if d2 > 0 then end1 - d2 else end1
      ¬ -off > (w1.block.length : Int) →
      ¬ (0 ≤ off ∧ (i : Int) > (done : Int) + off) →
      end2 - st < (minCopyChunk : Int) →
      writeLoop w p start done i (fuel + 1) =
        writeLoop w1 p start done (i + 1) fuel) ∧
    (∀ (fuel : Nat) (w : WState) (p : List Nat) (start done i : Nat)
      (w' : WState) (done' : Nat),
      writeLoop w p start done i fuel = .ok (w', done') →
      ∃ s, w'.b = w.b ++ s ∧ EmitOk s) ∧
    (∀ (w0 : WState) (p : List Nat) (resp : List Nat → Nat × Bool)
      (fuel : Nat) (w' : WState) (n : Nat) (ef : Bool) (payload : List Nat),
      w0.Write p resp fuel = .ok (w', n, ef, payload) →
      ∃ s, payload = (w0.startBuf).b ++ s ∧ EmitOk s) := by
  refine ⟨?_, ?_, ?_, ?_⟩
  · intro w p done st i hz hlt
    rw [WState.writeRunlen, if_neg hz, if_pos hlt]
    rfl
  · intro w p start done i fuel hp4
    intro posH w1 off eb st e8 e1 blit d1 end1 d2 end2
    intro hc2 hc3 hc4
    rw [writeLoop]
    lift_lets
    extract_lets hh2 posH2 w12 off2 eb2 ist2 st2 e82 e12 iend02 end02 blit2
      bend2 d12 iend12 end12 d22 iend22 end22 jp2
    rw [if_pos hp4]
    have hc2' : ¬ -off2 > ((w12 : WState).block.length : Int) := hc2
    rw [if_neg hc2']
    have hc3' : ¬ (0 ≤ off2 ∧ (i : Int) > (done : Int) + off2) := hc3
    rw [if_neg hc3']
    have hc4' : end22 - st2 < (minCopyChunk : Int) := hc4
    rw [if_pos hc4']
  · intro fuel w p start done i w' done' h
    exact writeLoop_emit p start fuel w done i w' done' h
  · intro w0 p resp fuel w' n ef payload h
    exact Write_emit w0 p resp fuel w' n ef payload h

theorem c5_min_copy_enforced_witness :
    (¬ ((0 : Nat) + 8 < ([2, 3, 4, 5, 6, 2, 3, 4, 5, 6] : List Nat).length ∧
      read8LE [2, 3, 4, 5, 6, 2, 3, 4, 5, 6] 0 = 0)) ∧
    ((runFwd [2, 3, 4, 5, 6, 2, 3, 4, 5, 6] 0 5 0 : Int) -
      (runBack [2, 3, 4, 5, 6, 2, 3, 4, 5, 6] 0 0 5 (-1) + 1) <
      (minCopyChunk : Int)) ∧
    (({ ver := 1 } : WState).writeRunlen [2, 3, 4, 5, 6, 2, 3, 4, 5, 6] 0 0 5 =
      .ok ({ ver := 1 }, 0, 6)) ∧
    (writeLoop
        { block := List.replicate 32 0, mask := 31, ht := List.replicate 4 0,
          hsh := 30 }
        [1, 2, 3, 4, 5] 0 0 0 1 =
      writeLoop
        { block := List.replicate 32 0, mask := 31, ht := [0, 0, 0, 0],
          hsh := 30 }
        [1, 2, 3, 4, 5] 0 0 1 0) ∧
    (∃ s,
      ({ block := List.replicate 32 0, mask := 31, ht := List.replicate 4 0,
         hsh := 30 } : WState).b =
        ({ block := List.replicate 32 0, mask := 31, ht := List.replicate 4 0,
           hsh := 30 } : WState).b ++ s ∧ EmitOk s) ∧
    (∃ s, ([128, 2, 101, 97, 122, 121, 128, 16, 5, 3, 1, 2, 3] : List Nat) =
      [128, 2, 101, 97, 122, 121, 128, 16, 5] ++ s ∧ EmitOk s) :=
  ⟨by decide, by decide,
    c5_min_copy_enforced.1 { ver := 1 } [2, 3, 4, 5, 6, 2, 3, 4, 5, 6] 0 0 5
      (by decide) (by decide),
    c5_min_copy_enforced.2.1
      { block := List.replicate 32 0, mask := 31, ht := List.replicate 4 0,
        hsh := 30 }
      [1, 2, 3, 4, 5] 0 0 0 0 (by decide) (by decide) (by decide) (by decide),
    c5_min_copy_enforced.2.2.1 1
      { block := List.replicate 32 0, mask := 31, ht := List.replicate 4 0,
        hsh := 30 }
      [1, 2, 3] 0 0 0
      { block := List.replicate 32 0, mask := 31, ht := List.replicate 4 0,
        hsh := 30 }
      0 (by decide),
    c5_min_copy_enforced.2.2.2
      { b := [], written := 0, block := List.replicate 32 0, mask := 31,
        pos := 0, ht := List.replicate 4 0, hsh := 30, ver := 0,
        appendMagic := true }
      [1, 2, 3] (fun b => (b.length, false)) 1
      { b := [128, 2, 101, 97, 122, 121, 128, 16, 5, 3, 1, 2, 3],
        written := 13, block := [1, 2, 3] ++ List.replicate 29 0, mask := 31,
        pos := 3, ht := List.replicate 4 0, hsh := 30, ver := 0,
        appendMagic := true }
      3 false [128, 2, 101, 97, 122, 121, 128, 16, 5, 3, 1, 2, 3] (by decide)⟩

end Eazy
